import Mathlib

/-!
# NFA to DFA conversion (`homework/NFA2DFA_auto_all_the_things`) and `BitPattern`

A shallow embedding of `FA.h`, `FA.cpp` and `convertor.cpp`, followed by one of
`HighPerfBitPattern/BitPattern.hpp`.

* `std::set<T>` is a list kept in ascending order: `set_insert` is the ordered
  insertion of `std::set::insert`, `count` is list membership, iteration is the
  list order and `begin()` is the head.
* `std::map<K, V>` is an association list kept in ascending key order:
  `map_find` is `std::map::find`, `map_assign` is `operator[]` followed by an
  assignment.
* `int` states and `char` symbols are integers; the code only compares them.
* `std::stack` is a list whose head is the top.
* The two `while` loops are functions of a step budget and of the loop state;
  they leave the loop as soon as the guard fails. Separate theorems show that
  the budget used by `epsilon_closure` and `convert` is never exhausted.
* The functions with a name in `_call` are a second translation of the same
  code that returns, next to the value, the automaton object after the call;
  the object is passed from each call to the next.
* `std::uint64_t` is a natural number below `2 ^ 64`; the constructor of
  `BitPattern` returns the object or the reason why its constant evaluation is
  rejected.
-/

namespace fa

/-- The type `fa::state` (`int`). -/
abbrev state := Int

/-- The type `fa::symbol` (`char`), as its integer value. -/
abbrev symbol := Int

/-- The constant `fa::epsilon`. -/
def epsilon : symbol := 0

/-- Comparison `operator<` of `int` and of `char`. -/
def int_less (a b : Int) : Bool := decide (a < b)

/-- Comparison `operator<` of `std::set<int>`: `std::lexicographical_compare`. -/
def set_less : List state → List state → Bool
  | _, [] => false
  | [], _ :: _ => true
  | a :: as, b :: bs =>
    if a < b then true else if b < a then false else set_less as bs

/-- Comparison `operator<` of `std::pair<std::set<int>, char>`. -/
def key_less (k1 k2 : List state × symbol) : Bool :=
  set_less k1.1 k2.1 || (!set_less k2.1 k1.1 && int_less k1.2 k2.2)

/-- Ordered insertion `std::set::insert`: an element equivalent to one already
present is not inserted. -/
def set_insert {α : Type} (lt : α → α → Bool) (x : α) : List α → List α
  | [] => [x]
  | y :: ys =>
    if lt x y then x :: y :: ys
    else if lt y x then y :: set_insert lt x ys
    else y :: ys

/-- Lookup `std::map::find`: the value stored under the key, if any. -/
def map_find {κ β : Type} [DecidableEq κ] (k : κ) : List (κ × β) → Option β
  | [] => none
  | (k1, v1) :: rest => if k1 = k then some v1 else map_find k rest

/-- Assignment `m[k] = v` of `std::map`: the entry is created in key order
or, when the key is present, its value is overwritten. -/
def map_assign {κ β : Type} (lt : κ → κ → Bool) (k : κ) (v : β) :
    List (κ × β) → List (κ × β)
  | [] => [(k, v)]
  | (k1, v1) :: rest =>
    if lt k k1 then (k, v) :: (k1, v1) :: rest
    else if lt k1 k then (k1, v1) :: map_assign lt k v rest
    else (k1, v) :: rest

/-- The type `fa::transition_table`. -/
abbrev transition_table := List ((state × symbol) × List state)

/-- The class `fa::finite_autometa`: the five data members set by the
constructor (`m_is_DFA` is never written nor read). -/
structure finite_autometa where
  m_Q : List state
  m_input : List symbol
  m_F : List state
  m_q0 : state
  m_tr : transition_table
deriving DecidableEq

/-- Member function `finite_autometa::move (state, symbol)`. -/
def finite_autometa.move (fa : finite_autometa) (current_state : state)
    (input_symbol : symbol) : List state :=
  match map_find (current_state, input_symbol) fa.m_tr with
  | some new_state => new_state
  | none => []

/-- Member function `finite_autometa::move (std::set<state>, symbol)`. -/
def finite_autometa.move_set (fa : finite_autometa) (states : List state)
    (input_symbol : symbol) : List state :=
  states.foldl
    (fun destination_set current_state =>
      (fa.move current_state input_symbol).foldl
        (fun acc dest_state => set_insert int_less dest_state acc) destination_set)
    []

end fa

open fa

/-- The `for` loop over `fa_states` inside the `while` loop of
`epsilon_closure`, on the pair (stack, `e_t`). -/
def closure_scan (fa : finite_autometa) (top : state) :
    List state → List state × List state → List state × List state
  | [], s => s
  | current_state :: rest, (st, e_t) =>
    if top ∈ fa.move current_state epsilon ∧ current_state ∉ e_t then
      closure_scan fa top rest (current_state :: st, set_insert int_less current_state e_t)
    else
      closure_scan fa top rest (st, e_t)

/-- The `while (!st.empty ())` loop of `epsilon_closure`, on the pair
(stack, `e_t`), with a step budget. -/
def closure_loop (fa : finite_autometa) :
    Nat → List state × List state → List state × List state
  | 0, s => s
  | _ + 1, ([], e_t) => ([], e_t)
  | n + 1, (top :: st, e_t) =>
    closure_loop fa n (closure_scan fa top fa.m_Q (st, e_t))

/-- The function `epsilon_closure (fa::state t, fa)`. -/
def epsilon_closure (t : state) (fa : finite_autometa) : List state :=
  (closure_loop fa (1 + fa.m_Q.length) ([t], [t])).2

/-- The function `epsilon_closure (std::set<fa::state> t, fa)`: every element
of `t` is pushed in iteration order, so the last one is on top. -/
def epsilon_closure_set (t : List state) (fa : finite_autometa) : List state :=
  (closure_loop fa (t.length + fa.m_Q.length) (t.foldl (fun st s => s :: st) [], t)).2

/-- The type `dfa_state` of `convert`. -/
abbrev dfa_state := List state

/-- The type of `dfa_trans` in `convert`. -/
abbrev dfa_table := List ((dfa_state × symbol) × dfa_state)

/-- The local variables of `convert` that the `while` loop changes. -/
structure convert_state where
  dfa_states : List dfa_state
  unmarked_states : List dfa_state
  dfa_trans : dfa_table
deriving DecidableEq

/-- The statement `if (!dfa_states.count (u)) { ... }` in `convert`. -/
def convert_discover (u : dfa_state) (s : convert_state) : convert_state :=
  if u ∈ s.dfa_states then s
  else
    { s with
      dfa_states := set_insert set_less u s.dfa_states
      unmarked_states := set_insert set_less u s.unmarked_states }

/-- The body of `for (auto symbol: input_symbols)` in `convert`. -/
def convert_symbol (nfa : finite_autometa) (T : dfa_state) (s : convert_state)
    (symbol : symbol) : convert_state :=
  let u := epsilon_closure_set (nfa.move_set T symbol) nfa
  let s1 := convert_discover u s
  { s1 with dfa_trans := map_assign key_less (T, symbol) u s1.dfa_trans }

/-- The `while (! unmarked_states.empty ())` loop of `convert`, with a step
budget: the first element of `unmarked_states` is extracted and every input
symbol is handled. -/
def convert_loop (nfa : finite_autometa) : Nat → convert_state → convert_state
  | 0, s => s
  | n + 1, s =>
    match s.unmarked_states with
    | [] => s
    | T :: rest =>
      convert_loop nfa n
        (nfa.m_input.foldl (convert_symbol nfa T) { s with unmarked_states := rest })

/-- Every state that can be a member of a `dfa_state`: the initial state, the
declared states and the destinations of the transition relation. -/
def state_universe (nfa : finite_autometa) : List state :=
  nfa.m_q0 :: (nfa.m_Q ++ (nfa.m_tr.map Prod.snd).flatten)

/-- The state of `convert` when the `while` loop is entered. -/
def convert_init (nfa : finite_autometa) : convert_state :=
  let s0 := epsilon_closure nfa.m_q0 nfa
  { dfa_states := [s0], unmarked_states := [s0], dfa_trans := [] }

/-- The state of `convert` when the `while` loop is left. -/
def convert_final (nfa : finite_autometa) : convert_state :=
  convert_loop nfa (2 ^ (state_universe nfa).length) (convert_init nfa)

/-- The function `convert`. -/
def convert (nfa : finite_autometa) : dfa_table :=
  (convert_final nfa).dfa_trans

/-- The automaton built in `main`; the symbols are `'a'` = 97 and `'b'` = 98. -/
def main_nfa : finite_autometa :=
  { m_Q := [1, 2, 3]
    m_input := [97, 98]
    m_F := [3]
    m_q0 := 1
    m_tr := [((1, 97), [1]), ((1, 98), [2]), ((2, 97), [1, 2]),
             ((2, 98), [3]), ((3, 97), [3]), ((3, 98), [3])] }

/-! ## Measures and invariants of the loops -/

/-- The quantity that bounds the remaining iterations of the worklist loop:
the height of the stack plus the declared states not yet in `e_t`. -/
def closure_measure (fa : finite_autometa) (s : List state × List state) : Nat :=
  s.1.length + fa.m_Q.countP (fun x => decide (x ∉ s.2))

/-- State `q` is a declared state with an ε-transition into `x`: the test of
the scan in `epsilon_closure`, with `x` the popped state. -/
def eps_pred (fa : finite_autometa) (x q : state) : Prop :=
  q ∈ fa.m_Q ∧ x ∈ fa.move q epsilon

/-- The set `e` contains every declared ε-predecessor of each of its members. -/
def eps_closed (fa : finite_autometa) (e : List state) : Prop :=
  ∀ x ∈ e, ∀ q, eps_pred fa x q → q ∈ e

/-- Invariant of the worklist loop started from `seed`. -/
structure closure_inv (fa : finite_autometa) (seed : List state)
    (s : List state × List state) : Prop where
  stack_sub : ∀ x ∈ s.1, x ∈ s.2
  seed_sub : ∀ x ∈ seed, x ∈ s.2
  sound : ∀ x ∈ s.2, ∃ t ∈ seed, Relation.ReflTransGen (eps_pred fa) t x
  pending : ∀ x ∈ s.2, x ∈ s.1 ∨ ∀ q, eps_pred fa x q → q ∈ s.2

/-- The union of two `std::set<fa::state>` values, by inserting the second
into the first. -/
def set_union (A B : List state) : List state :=
  B.foldl (fun acc x => set_insert int_less x acc) A

/-- A well-formed `dfa_state`: ascending without repetition, drawn from the
states of the automaton. -/
def dfa_state_wf (nfa : finite_autometa) (T : dfa_state) : Prop :=
  T.Sorted (· < ·) ∧ ∀ x ∈ T, x ∈ state_universe nfa

/-- Properties of the variables of `convert` that hold at every point of the
loop. -/
structure convert_base (nfa : finite_autometa) (s : convert_state) : Prop where
  start_mem : epsilon_closure nfa.m_q0 nfa ∈ s.dfa_states
  unmarked_sub : ∀ T ∈ s.unmarked_states, T ∈ s.dfa_states
  entries : ∀ T c u, ((T, c), u) ∈ s.dfa_trans →
    T ∈ s.dfa_states ∧ c ∈ nfa.m_input ∧
      u = epsilon_closure_set (nfa.move_set T c) nfa ∧ u ∈ s.dfa_states
  states_nodup : s.dfa_states.Nodup
  unmarked_nodup : s.unmarked_states.Nodup
  states_wf : ∀ T ∈ s.dfa_states, dfa_state_wf nfa T

/-- Invariant of the `for` loop over the input symbols while `T` is being
handled; `pending` are the symbols still to come. -/
structure convert_inner (nfa : finite_autometa) (T : dfa_state) (pending : List symbol)
    (s : convert_state) : Prop where
  base : convert_base nfa s
  T_mem : T ∈ s.dfa_states
  T_marked : T ∉ s.unmarked_states
  others_done : ∀ T1 ∈ s.dfa_states, T1 ∉ s.unmarked_states → T1 ≠ T →
    ∀ c ∈ nfa.m_input,
      map_find (T1, c) s.dfa_trans = some (epsilon_closure_set (nfa.move_set T1 c) nfa)
  T_done : ∀ c ∈ nfa.m_input, c ∉ pending →
    map_find (T, c) s.dfa_trans = some (epsilon_closure_set (nfa.move_set T c) nfa)

/-- Invariant of the `while` loop of `convert`. -/
structure convert_inv (nfa : finite_autometa) (s : convert_state) : Prop where
  base : convert_base nfa s
  marked_done : ∀ T ∈ s.dfa_states, T ∉ s.unmarked_states → ∀ c ∈ nfa.m_input,
    map_find (T, c) s.dfa_trans = some (epsilon_closure_set (nfa.move_set T c) nfa)

/-- The quantity that bounds the remaining iterations of the loop of `convert`. -/
def convert_measure (nfa : finite_autometa) (s : convert_state) : Nat :=
  (2 ^ (state_universe nfa).length - s.dfa_states.length) + s.unmarked_states.length

/-! ## Notions used to state the properties -/

/-- The containers of the automaton are values that `std::set` and `std::map`
can hold: ascending without repetition. -/
def fa.finite_autometa.valid (fa : finite_autometa) : Prop :=
  fa.m_Q.Pairwise (· < ·) ∧ fa.m_input.Pairwise (· < ·) ∧ fa.m_F.Pairwise (· < ·) ∧
    (fa.m_tr.map Prod.fst).Pairwise (fun a b => a.1 < b.1 ∨ (a.1 = b.1 ∧ a.2 < b.2)) ∧
    ∀ e ∈ fa.m_tr, e.2.Pairwise (· < ·)

/-- Well-formed automaton: the initial state, the accepting states and the
states of the transitions are declared, the symbols of the transitions are in
the alphabet or ε, and ε is not in the alphabet. -/
def well_formed (fa : finite_autometa) : Prop :=
  fa.m_q0 ∈ fa.m_Q ∧ (∀ q ∈ fa.m_F, q ∈ fa.m_Q) ∧
    (∀ e ∈ fa.m_tr, e.1.1 ∈ fa.m_Q ∧ (∀ d ∈ e.2, d ∈ fa.m_Q) ∧
      (e.1.2 ∈ fa.m_input ∨ e.1.2 = epsilon)) ∧
    epsilon ∉ fa.m_input

/-- Standard semantics of an NFA with ε-transitions: `nfa_reach fa q w p` holds
when the automaton can go from `q` to `p` reading `w`, taking ε-transitions at
any point. -/
inductive nfa_reach (fa : finite_autometa) : state → List symbol → state → Prop
  | done (q : state) : nfa_reach fa q [] q
  | eps (q r p : state) (w : List symbol) :
      r ∈ fa.move q epsilon → nfa_reach fa r w p → nfa_reach fa q w p
  | step (q r p : state) (c : symbol) (w : List symbol) :
      r ∈ fa.move q c → nfa_reach fa r w p → nfa_reach fa q (c :: w) p

/-- Standard acceptance of a word by the NFA. -/
def nfa_accepts (fa : finite_autometa) (w : List symbol) : Prop :=
  ∃ p ∈ fa.m_F, nfa_reach fa fa.m_q0 w p

/-- Running a table of `convert` from a `dfa_state` over a word; `none` when a
lookup finds no entry. -/
def table_run (table : dfa_table) : dfa_state → List symbol → Option dfa_state
  | T, [] => some T
  | T, c :: w =>
    match map_find (T, c) table with
    | some u => table_run table u w
    | none => none

/-- The run of the table of `convert` from `s0` over the word ends in a set
that meets the accepting states. -/
def dfa_accepts (nfa : finite_autometa) (w : List symbol) : Bool :=
  match table_run (convert nfa) (epsilon_closure nfa.m_q0 nfa) w with
  | some T => T.any (fun q => decide (q ∈ nfa.m_F))
  | none => false

/-- A `dfa_state` produced by `convert`: `s0`, the state of a key of the
returned table, or a value of the returned table. -/
def dfa_state_produced (nfa : finite_autometa) (T : dfa_state) : Prop :=
  T = epsilon_closure nfa.m_q0 nfa ∨ (∃ e ∈ convert nfa, e.1.1 = T) ∨
    (∃ e ∈ convert nfa, e.2 = T)

/-- The table has an entry under the key `(T, c)`. -/
def table_has_key (table : dfa_table) (T : dfa_state) (c : symbol) : Prop :=
  ∃ e ∈ table, e.1 = (T, c)

/-- An automaton with an ε-transition: `1 -a-> 2 -ε-> 3`, accepting in 3;
the symbol `'a'` is 97. -/
def eps_nfa : finite_autometa :=
  { m_Q := [1, 2, 3]
    m_input := [97]
    m_F := [3]
    m_q0 := 1
    m_tr := [((1, 97), [2]), ((2, 0), [3])] }

/-- An automaton whose initial state has no transition on `'b'` (98):
`1 -a-> 2`, accepting in 2. -/
def dead_nfa : finite_autometa :=
  { m_Q := [1, 2]
    m_input := [97, 98]
    m_F := [2]
    m_q0 := 1
    m_tr := [((1, 97), [2])] }

/-- An automaton that breaks the invariants of a well-formed automaton: the
initial state 5 and the accepting state 7 are not declared, and a transition
uses the symbol `'b'` (98), which is not in the alphabet. -/
def bad_nfa : finite_autometa :=
  { m_Q := [1, 2]
    m_input := [97]
    m_F := [7]
    m_q0 := 5
    m_tr := [((5, 98), [1])] }

/-- The constructor `finite_autometa::finite_autometa`: its member
initialiser list; the body is empty. -/
def fa.finite_autometa.construct (states : List state) (input_alpha : List symbol)
    (final_states : List state) (initial_state : state) (relations : transition_table) :
    finite_autometa :=
  { m_Q := states, m_input := input_alpha, m_F := final_states, m_q0 := initial_state,
    m_tr := relations }

/-- Accessor `get_states`. -/
def fa.finite_autometa.get_states (fa : finite_autometa) : List state := fa.m_Q

/-- Accessor `get_input_chars`. -/
def fa.finite_autometa.get_input_chars (fa : finite_autometa) : List symbol := fa.m_input

/-- Accessor `get_finalstates`. -/
def fa.finite_autometa.get_finalstates (fa : finite_autometa) : List state := fa.m_F

/-- Accessor `get_initialstate`. -/
def fa.finite_autometa.get_initialstate (fa : finite_autometa) : state := fa.m_q0

/-- Accessor `get_transition_relations`. -/
def fa.finite_autometa.get_transition_relations (fa : finite_autometa) : transition_table :=
  fa.m_tr

/-- Removal `std::set::extract` of the element `x`. -/
def set_extract {α : Type} [DecidableEq α] (x : α) : List α → List α
  | [] => []
  | y :: ys => if y = x then ys else y :: set_extract x ys

/-- A variant of the loop of `convert` that extracts from `unmarked_states`
the element named by `pick` (a function of the remaining budget and of the
state) instead of the first one; a choice that is not in `unmarked_states`
falls back to the first element. -/
def convert_loop_any (nfa : finite_autometa) (pick : Nat → convert_state → dfa_state) :
    Nat → convert_state → convert_state
  | 0, s => s
  | n + 1, s =>
    match s.unmarked_states with
    | [] => s
    | T0 :: rest0 =>
      let T := if pick n s ∈ T0 :: rest0 then pick n s else T0
      convert_loop_any nfa pick n
        (nfa.m_input.foldl (convert_symbol nfa T)
          { s with unmarked_states := set_extract T (T0 :: rest0) })

/-- The function `convert` with the loop replaced by the variant that drains
`unmarked_states` in the order given by `pick`. -/
def convert_any (nfa : finite_autometa) (pick : Nat → convert_state → dfa_state) :
    convert_state :=
  convert_loop_any nfa pick (2 ^ (state_universe nfa).length) (convert_init nfa)

/-- The sets of states that subset construction generates: `s0` and, for a
generated `T` and an input symbol `c`, `epsilon_closure (move (T, c))`. -/
inductive dfa_generated (nfa : finite_autometa) : dfa_state → Prop
  | start : dfa_generated nfa (epsilon_closure nfa.m_q0 nfa)
  | next (T : dfa_state) (c : symbol) : dfa_generated nfa T → c ∈ nfa.m_input →
      dfa_generated nfa (epsilon_closure_set (nfa.move_set T c) nfa)

/-- The keys of a table are in ascending order of `key_less`. -/
def table_sorted (m : dfa_table) : Prop :=
  (m.map Prod.fst).Pairwise (fun a b => key_less a b = true)

/-- The members of a set of `dfa_state` are in ascending order of `set_less`. -/
def states_sorted (D : List dfa_state) : Prop :=
  D.Pairwise (fun a b => set_less a b = true)

/-- The sets of states in the domain or in the range of a table. -/
def table_states (table : dfa_table) : List dfa_state :=
  table.map (fun e => e.1.1) ++ table.map (fun e => e.2)

/-! ## `BitPattern` (`HighPerfBitPattern`) -/

/-- The class `BitPattern`: its two data members, of type `std::uint64_t`. -/
structure BitPattern where
  expected : Nat
  mask : Nat
deriving DecidableEq

/-- The ways in which the constant evaluation of the constructor of
`BitPattern` is rejected: the `throw std::logic_error`, and a shift
`1 << (Size - 2)` that `int` does not define. -/
inductive BitPattern_failure where
  | logic_error
  | undefined_shift
deriving DecidableEq

/-- The array that a string literal denotes: its characters and the
terminating NUL. -/
def c_string (p : List Char) : List Char := p ++ [Char.ofNat 0]

/-- Bitwise complement `~x` of a `std::uint64_t`. -/
def uint64_not (x : Nat) : Nat := (2 ^ 64 - 1) ^^^ x

/-- The initialiser `(1 << (Size - 2))` of `cur_bit`: the shift is done in
`int`, on the count `Size - 2` of type `std::size_t`, and the result is
converted to `std::uint64_t`. A count of 31 gives `INT_MIN`, which converts to
`2 ^ 64 - 2 ^ 31`; a larger count, also the one that `Size = 1` wraps to, is
not defined. -/
def initial_cur_bit (Size : Nat) : Option Nat :=
  if Size < 2 then none
  else if Size - 2 < 31 then some (2 ^ (Size - 2))
  else if Size - 2 = 31 then some (2 ^ 64 - 2 ^ 31)
  else none

/-- The loop `for (const char val : input)` of the constructor of `BitPattern`,
on the members `expected` and `mask` and the variable `cur_bit`. -/
def BitPattern.scan : List Char → BitPattern → Nat → Except BitPattern_failure BitPattern
  | [], pat, _ => .ok pat
  | val :: rest, pat, cur_bit =>
    if val = Char.ofNat 0 then .ok pat
    else if val = '1' then
      BitPattern.scan rest { pat with expected := pat.expected ||| cur_bit } (cur_bit >>> 1)
    else if val = '0' then
      BitPattern.scan rest pat (cur_bit >>> 1)
    else if val = 'x' ∨ val = 'X' then
      BitPattern.scan rest { pat with mask := pat.mask &&& uint64_not cur_bit } (cur_bit >>> 1)
    else .error .logic_error

/-- The constructor `BitPattern::BitPattern (const char (&input)[Size])`. -/
def BitPattern.construct (input : List Char) : Except BitPattern_failure BitPattern :=
  match initial_cur_bit input.length with
  | none => .error .undefined_shift
  | some cur_bit =>
    BitPattern.scan input { expected := 0, mask := 0xFFFFFFFFFFFFFFFF } cur_bit

/-- The comparison `operator== (value, pattern)`; the value, of an unsigned
type, is converted to `std::uint64_t`. -/
def BitPattern.eq_value (value : Nat) (pattern : BitPattern) : Bool :=
  decide (value &&& pattern.mask = pattern.expected)

/-- The character of the pattern `cs` that stands for bit `j` of the value:
the one with `j` characters after it. -/
def pattern_char (cs : List Char) (j : Nat) : Option Char :=
  if j < cs.length then cs[cs.length - 1 - j]? else none

/-! ## Chains, runs and iterations -/

/-- State `a` is a declared state with an ε-transition to `b`: one link of a
chain of ε-transitions through declared states. -/
def eps_step (fa : finite_autometa) (a b : state) : Prop :=
  a ∈ fa.m_Q ∧ b ∈ fa.move a epsilon

/-- An automaton with an ε-transition into its initial state: `2 -ε-> 1`;
state 2 cannot be reached from the initial state 1. -/
def back_nfa : finite_autometa :=
  { m_Q := [1, 2]
    m_input := [97]
    m_F := [1]
    m_q0 := 1
    m_tr := [((2, 0), [1])] }

/-- The set that subset construction reaches from `T` over a word: one
`epsilon_closure (move (·, c))` per symbol. -/
def subset_run (nfa : finite_autometa) (T : dfa_state) (w : List symbol) : dfa_state :=
  w.foldl (fun S c => epsilon_closure_set (nfa.move_set S c) nfa) T

/-- The characters of a `char` array that come before its first NUL. -/
def chars_before_nul (input : List Char) : List Char :=
  input.takeWhile (fun c => decide (c ≠ Char.ofNat 0))

/-- A character that the constructor of `BitPattern` knows: `0`, `1`, `x` or
`X`. -/
def known_char (c : Char) : Prop := c = '0' ∨ c = '1' ∨ c = 'x' ∨ c = 'X'

/-- The iterations of the loop of `convert` from a state: for each one, the
state at the loop head and the set extracted from `unmarked_states`. -/
def convert_run (nfa : finite_autometa) : Nat → convert_state → List (convert_state × dfa_state)
  | 0, _ => []
  | n + 1, s =>
    match s.unmarked_states with
    | [] => []
    | T :: rest =>
      (s, T) ::
        convert_run nfa n
          (nfa.m_input.foldl (convert_symbol nfa T) { s with unmarked_states := rest })

/-- The iterations of the loop in a call of `convert`. -/
def convert_iterations (nfa : finite_autometa) : List (convert_state × dfa_state) :=
  convert_run nfa (2 ^ (state_universe nfa).length) (convert_init nfa)

/-- The keys assigned by `dfa_trans [{T, symbol}] = u` in a call of `convert`,
in the order of the assignments: the iteration that extracts `T` assigns one
key per input symbol. -/
def convert_writes (nfa : finite_autometa) : List (dfa_state × symbol) :=
  (convert_iterations nfa).flatMap (fun p => nfa.m_input.map (fun c => (p.2, c)))

/-! ## The automaton object threaded through the calls -/

/-- The call `fa.get_states ()`: the object after the call and the value
returned. -/
def fa.finite_autometa.get_states_call (fa : finite_autometa) :
    finite_autometa × List state := (fa, fa.m_Q)

/-- The call `fa.get_input_chars ()`: the object after the call and the value
returned. -/
def fa.finite_autometa.get_input_chars_call (fa : finite_autometa) :
    finite_autometa × List symbol := (fa, fa.m_input)

/-- The call `fa.get_finalstates ()`: the object after the call and the value
returned. -/
def fa.finite_autometa.get_finalstates_call (fa : finite_autometa) :
    finite_autometa × List state := (fa, fa.m_F)

/-- The call `fa.get_initialstate ()`: the object after the call and the value
returned. -/
def fa.finite_autometa.get_initialstate_call (fa : finite_autometa) :
    finite_autometa × state := (fa, fa.m_q0)

/-- The call `fa.get_transition_relations ()`: the object after the call and
the value returned. -/
def fa.finite_autometa.get_transition_relations_call (fa : finite_autometa) :
    finite_autometa × transition_table := (fa, fa.m_tr)

/-- The call `fa.move (current_state, input_symbol)`: the object after the
call and the value returned; the body reads `m_tr` and writes no member. -/
def fa.finite_autometa.move_call (fa : finite_autometa) (current_state : state)
    (input_symbol : symbol) : finite_autometa × List state :=
  match map_find (current_state, input_symbol) fa.m_tr with
  | some new_state => (fa, new_state)
  | none => (fa, [])

/-- The call `fa.move (states, input_symbol)`: the object is passed from each
call of `move (current_state, input_symbol)` to the next. -/
def fa.finite_autometa.move_set_call (fa : finite_autometa) (states : List state)
    (input_symbol : symbol) : finite_autometa × List state :=
  states.foldl
    (fun (acc : finite_autometa × List state) current_state =>
      let new_states := acc.1.move_call current_state input_symbol
      (new_states.1,
        new_states.2.foldl (fun d dest_state => set_insert int_less dest_state d) acc.2))
    (fa, [])

/-- The `for` loop over `fa_states` of `epsilon_closure`, with the object
passed from each call of `move` to the next. -/
def closure_scan_call (top : state) :
    List state → finite_autometa × (List state × List state) →
      finite_autometa × (List state × List state)
  | [], s => s
  | current_state :: rest, (fa, st, e_t) =>
    let dests := fa.move_call current_state epsilon
    if top ∈ dests.2 ∧ current_state ∉ e_t then
      closure_scan_call top rest
        (dests.1, current_state :: st, set_insert int_less current_state e_t)
    else
      closure_scan_call top rest (dests.1, st, e_t)

/-- The `while` loop of `epsilon_closure` over the copy `fa_states`, with the
object passed along. -/
def closure_loop_call (fa_states : List state) :
    Nat → finite_autometa × (List state × List state) →
      finite_autometa × (List state × List state)
  | 0, s => s
  | _ + 1, (fa, [], e_t) => (fa, [], e_t)
  | n + 1, (fa, top :: st, e_t) =>
    closure_loop_call fa_states n (closure_scan_call top fa_states (fa, st, e_t))

/-- The call `epsilon_closure (t, fa)` for a state `t`: the object after the
call and the value returned. -/
def epsilon_closure_call (t : state) (fa : finite_autometa) :
    finite_autometa × List state :=
  let fa_trans := fa.get_transition_relations_call
  let fa_states := fa_trans.1.get_states_call
  let r := closure_loop_call fa_states.2 (1 + fa_states.2.length) (fa_states.1, [t], [t])
  (r.1, r.2.2)

/-- The call `epsilon_closure (t, fa)` for a set `t`: the object after the
call and the value returned. -/
def epsilon_closure_set_call (t : List state) (fa : finite_autometa) :
    finite_autometa × List state :=
  let fa_trans := fa.get_transition_relations_call
  let fa_states := fa_trans.1.get_states_call
  let r := closure_loop_call fa_states.2 (t.length + fa_states.2.length)
    (fa_states.1, t.foldl (fun st s => s :: st) [], t)
  (r.1, r.2.2)

/-- The body of `for (auto symbol: input_symbols)` in `convert`, with the
object passed through the calls of `move` and `epsilon_closure`. -/
def convert_symbol_call (T : dfa_state) (acc : finite_autometa × convert_state)
    (symbol : symbol) : finite_autometa × convert_state :=
  let moved := acc.1.move_set_call T symbol
  let u := epsilon_closure_set_call moved.2 moved.1
  let s1 := convert_discover u.2 acc.2
  (u.1, { s1 with dfa_trans := map_assign key_less (T, symbol) u.2 s1.dfa_trans })

/-- The `while` loop of `convert` over the copy `input_symbols`, with the
object passed along. -/
def convert_loop_call (input_symbols : List symbol) :
    Nat → finite_autometa × convert_state → finite_autometa × convert_state
  | 0, s => s
  | n + 1, (nfa, s) =>
    match s.unmarked_states with
    | [] => (nfa, s)
    | T :: rest =>
      convert_loop_call input_symbols n
        (input_symbols.foldl (convert_symbol_call T) (nfa, { s with unmarked_states := rest }))

/-- The call `convert (nfa)`: the object after the call and the table
returned. -/
def convert_call (nfa : finite_autometa) : finite_autometa × dfa_table :=
  let q0 := nfa.get_initialstate_call
  let s0 := epsilon_closure_call q0.2 q0.1
  let input_symbols := s0.1.get_input_chars_call
  let r := convert_loop_call input_symbols.2 (2 ^ (state_universe nfa).length)
    (input_symbols.1, { dfa_states := [s0.2], unmarked_states := [s0.2], dfa_trans := [] })
  (r.1, r.2.dfa_trans)

/-! ## Ordered containers -/

theorem int_less_total (a b : Int) (h1 : int_less a b = false)
    (h2 : int_less b a = false) : a = b := by
  simp only [int_less, decide_eq_false_iff_not, not_lt] at h1 h2
  omega

theorem set_less_irrefl (a : List state) : set_less a a = false := by
  induction a with
  | nil => rfl
  | cons x xs ih => simp [set_less, ih]

theorem set_less_total : ∀ a b : List state,
    set_less a b = false → set_less b a = false → a = b
  | [], [], _, _ => rfl
  | [], _ :: _, h, _ => by simp [set_less] at h
  | _ :: _, [], _, h => by simp [set_less] at h
  | x :: xs, y :: ys, h1, h2 => by
    simp only [set_less] at h1 h2
    by_cases hxy : x < y
    · simp [hxy] at h1
    · by_cases hyx : y < x
      · simp [hyx] at h2
      · simp only [hxy, hyx, if_false] at h1 h2
        have hx : x = y := le_antisymm (not_lt.mp hyx) (not_lt.mp hxy)
        rw [hx, set_less_total xs ys h1 h2]

theorem mem_set_insert {α : Type} (lt : α → α → Bool)
    (htot : ∀ a b, lt a b = false → lt b a = false → a = b) (x a : α) (l : List α) :
    a ∈ set_insert lt x l ↔ a = x ∨ a ∈ l := by
  induction l with
  | nil => simp [set_insert]
  | cons y ys ih =>
    simp only [set_insert]
    cases h1 : lt x y with
    | true => simp
    | false =>
      cases h2 : lt y x with
      | true =>
        simp only [if_true, List.mem_cons, ih, Bool.false_eq_true, if_false]
        tauto
      | false =>
        have hxy : x = y := htot x y h1 h2
        simp only [Bool.false_eq_true, if_false, List.mem_cons]
        subst hxy
        tauto

theorem mem_insert_state (x a : state) (l : List state) :
    a ∈ set_insert int_less x l ↔ a = x ∨ a ∈ l :=
  mem_set_insert int_less int_less_total x a l

theorem mem_insert_dfa_state (x a : dfa_state) (l : List dfa_state) :
    a ∈ set_insert set_less x l ↔ a = x ∨ a ∈ l :=
  mem_set_insert set_less set_less_total x a l

/-! ## The two `move` functions -/

theorem mem_fold_insert (l : List state) : ∀ (init : List state) (d : state),
    d ∈ l.foldl (fun acc dest_state => set_insert int_less dest_state acc) init ↔
      d ∈ init ∨ d ∈ l := by
  induction l with
  | nil => intro init d; simp
  | cons x xs ih =>
    intro init d
    simp only [List.foldl_cons, ih, mem_insert_state, List.mem_cons]
    tauto

theorem mem_move_fold (fa : finite_autometa) (c : symbol) (S : List state) :
    ∀ (init : List state) (d : state),
    d ∈ S.foldl
        (fun destination_set current_state =>
          (fa.move current_state c).foldl
            (fun acc dest_state => set_insert int_less dest_state acc) destination_set)
        init ↔
      d ∈ init ∨ ∃ s ∈ S, d ∈ fa.move s c := by
  induction S with
  | nil => intro init d; simp
  | cons x xs ih =>
    intro init d
    simp only [List.foldl_cons, ih, mem_fold_insert, List.mem_cons, exists_eq_or_imp]
    tauto

theorem mem_move_set (fa : finite_autometa) (S : List state) (c : symbol) (d : state) :
    d ∈ fa.move_set S c ↔ ∃ s ∈ S, d ∈ fa.move s c := by
  unfold finite_autometa.move_set
  rw [mem_move_fold]
  simp

/-! ## The worklist loop of `epsilon_closure` -/

theorem closure_scan_mem_set (fa : finite_autometa) (top : state) (qs : List state) :
    ∀ (st e : List state) (x : state),
    x ∈ (closure_scan fa top qs (st, e)).2 ↔
      x ∈ e ∨ (x ∈ qs ∧ top ∈ fa.move x epsilon) := by
  induction qs with
  | nil => intro st e x; simp [closure_scan]
  | cons q rest ih =>
    intro st e x
    simp only [closure_scan]
    split
    · rename_i h
      rw [ih, mem_insert_state]
      simp only [List.mem_cons]
      constructor
      · rintro ((rfl | h1) | h1)
        · exact Or.inr ⟨Or.inl rfl, h.1⟩
        · exact Or.inl h1
        · exact Or.inr ⟨Or.inr h1.1, h1.2⟩
      · rintro (h1 | ⟨rfl | h1, h2⟩)
        · exact Or.inl (Or.inr h1)
        · exact Or.inl (Or.inl rfl)
        · exact Or.inr ⟨h1, h2⟩
    · rename_i h
      rw [ih]
      simp only [List.mem_cons]
      constructor
      · rintro (h1 | h1)
        · exact Or.inl h1
        · exact Or.inr ⟨Or.inr h1.1, h1.2⟩
      · rintro (h1 | ⟨rfl | h1, h2⟩)
        · exact Or.inl h1
        · left
          by_contra hx
          exact h ⟨h2, hx⟩
        · exact Or.inr ⟨h1, h2⟩

theorem closure_scan_mem_stack (fa : finite_autometa) (top : state) (qs : List state) :
    ∀ (st e : List state) (x : state),
    x ∈ (closure_scan fa top qs (st, e)).1 ↔
      x ∈ st ∨ (x ∈ qs ∧ top ∈ fa.move x epsilon ∧ x ∉ e) := by
  induction qs with
  | nil => intro st e x; simp [closure_scan]
  | cons q rest ih =>
    intro st e x
    simp only [closure_scan]
    split
    · rename_i h
      rw [ih]
      simp only [List.mem_cons, mem_insert_state, not_or]
      constructor
      · rintro ((rfl | h1) | h1)
        · exact Or.inr ⟨Or.inl rfl, h.1, h.2⟩
        · exact Or.inl h1
        · exact Or.inr ⟨Or.inr h1.1, h1.2.1, h1.2.2.2⟩
      · rintro (h1 | ⟨rfl | h1, h2, h3⟩)
        · exact Or.inl (Or.inr h1)
        · exact Or.inl (Or.inl rfl)
        · by_cases hx : x = q
          · exact Or.inl (Or.inl hx)
          · exact Or.inr ⟨h1, h2, hx, h3⟩
    · rename_i h
      rw [ih]
      simp only [List.mem_cons]
      constructor
      · rintro (h1 | h1)
        · exact Or.inl h1
        · exact Or.inr ⟨Or.inr h1.1, h1.2⟩
      · rintro (h1 | ⟨rfl | h1, h2, h3⟩)
        · exact Or.inl h1
        · exact absurd ⟨h2, h3⟩ h
        · exact Or.inr ⟨h1, h2, h3⟩

theorem closure_scan_noop (fa : finite_autometa) (top : state) (qs : List state)
    (st e : List state) (h : ∀ q ∈ qs, top ∈ fa.move q epsilon → q ∈ e) :
    closure_scan fa top qs (st, e) = (st, e) := by
  induction qs with
  | nil => rfl
  | cons q rest ih =>
    simp only [closure_scan]
    have hq : ¬(top ∈ fa.move q epsilon ∧ q ∉ e) := fun hc =>
      hc.2 (h q (List.mem_cons_self q rest) hc.1)
    rw [if_neg hq]
    exact ih (fun q1 h1 h2 => h q1 (List.mem_cons_of_mem q h1) h2)

theorem countP_strict_mono (p1 p2 : state → Bool) (q : state) (L : List state)
    (himp : ∀ x, p1 x = true → p2 x = true) (hq : q ∈ L) (h1 : p1 q = false)
    (h2 : p2 q = true) : L.countP p1 + 1 ≤ L.countP p2 := by
  induction L with
  | nil => simp at hq
  | cons y ys ih =>
    have hle : ys.countP p1 ≤ ys.countP p2 :=
      List.countP_mono_left (fun x _ hx => himp x hx)
    rw [List.countP_cons, List.countP_cons]
    by_cases hyq : y = q
    · subst hyq
      simp only [h1, h2, if_true, Bool.false_eq_true, if_false]
      omega
    · have hq2 : q ∈ ys := by
        rcases List.mem_cons.mp hq with h | h
        · exact absurd h.symm hyq
        · exact h
      have h3 := ih hq2
      cases hp1 : p1 y with
      | true => simp only [himp y hp1, if_true]; omega
      | false => simp only [Bool.false_eq_true, if_false]; split <;> omega

theorem countP_insert_lt (q : state) (e : List state) (L : List state)
    (hq : q ∈ L) (he : q ∉ e) :
    L.countP (fun x => decide (x ∉ set_insert int_less q e)) + 1 ≤
      L.countP (fun x => decide (x ∉ e)) := by
  apply countP_strict_mono _ _ q L _ hq
  · simp [mem_insert_state]
  · simpa using he
  · intro x hx
    simp only [decide_eq_true_eq, mem_insert_state, not_or] at hx ⊢
    exact hx.2

theorem closure_scan_measure (fa : finite_autometa) (top : state) (L qs : List state) :
    ∀ (st e : List state), (∀ q ∈ qs, q ∈ L) →
    (closure_scan fa top qs (st, e)).1.length +
        L.countP (fun x => decide (x ∉ (closure_scan fa top qs (st, e)).2)) ≤
      st.length + L.countP (fun x => decide (x ∉ e)) := by
  induction qs with
  | nil => intro st e _; simp [closure_scan]
  | cons q rest ih =>
    intro st e hsub
    have hrest : ∀ q1 ∈ rest, q1 ∈ L := fun q1 h1 => hsub q1 (List.mem_cons_of_mem q h1)
    simp only [closure_scan]
    split
    · rename_i h
      have h1 := ih (q :: st) (set_insert int_less q e) hrest
      have h2 := countP_insert_lt q e L (hsub q (List.mem_cons_self q rest)) h.2
      simp only [List.length_cons] at h1
      refine le_trans h1 ?_
      rw [Nat.add_right_comm, Nat.add_assoc]
      exact Nat.add_le_add_left h2 st.length
    · exact ih st e hrest

theorem closure_loop_stack_empty (fa : finite_autometa) :
    ∀ (n : Nat) (s : List state × List state), closure_measure fa s ≤ n →
      (closure_loop fa n s).1 = [] := by
  intro n
  induction n with
  | zero =>
    rintro ⟨st, e⟩ h
    simp only [closure_measure] at h
    have : st.length = 0 := by omega
    simpa [closure_loop] using List.length_eq_zero.mp this
  | succ n ih =>
    rintro ⟨st, e⟩ h
    cases st with
    | nil => rfl
    | cons top st =>
      simp only [closure_loop]
      apply ih
      have h1 := closure_scan_measure fa top fa.m_Q fa.m_Q st e (fun _ hq => hq)
      simp only [closure_measure, List.length_cons] at h ⊢
      omega

theorem closure_inv_step (fa : finite_autometa) (seed : List state) (top : state)
    (st e : List state) (h : closure_inv fa seed (top :: st, e)) :
    closure_inv fa seed (closure_scan fa top fa.m_Q (st, e)) := by
  have htop : top ∈ e := h.stack_sub top (List.mem_cons_self top st)
  refine ⟨?_, ?_, ?_, ?_⟩
  · intro x hx
    rw [closure_scan_mem_stack] at hx
    rw [closure_scan_mem_set]
    rcases hx with hx | hx
    · exact Or.inl (h.stack_sub x (List.mem_cons_of_mem top hx))
    · exact Or.inr ⟨hx.1, hx.2.1⟩
  · intro x hx
    rw [closure_scan_mem_set]
    exact Or.inl (h.seed_sub x hx)
  · intro x hx
    rw [closure_scan_mem_set] at hx
    rcases hx with hx | hx
    · exact h.sound x hx
    · obtain ⟨t, ht, hr⟩ := h.sound top htop
      exact ⟨t, ht, hr.tail hx⟩
  · intro x hx
    rw [closure_scan_mem_set] at hx
    rw [closure_scan_mem_stack]
    by_cases hxe : x ∈ e
    · rcases h.pending x hxe with h1 | h1
      · rcases List.mem_cons.mp h1 with h2 | h2
        · right
          intro q hq
          rw [closure_scan_mem_set]
          by_cases hqe : q ∈ e
          · exact Or.inl hqe
          · exact Or.inr ⟨hq.1, h2 ▸ hq.2⟩
        · exact Or.inl (Or.inl h2)
      · right
        intro q hq
        rw [closure_scan_mem_set]
        exact Or.inl (h1 q hq)
    · rcases hx with hx | hx
      · exact absurd hx hxe
      · exact Or.inl (Or.inr ⟨hx.1, hx.2, hxe⟩)

theorem closure_loop_inv (fa : finite_autometa) (seed : List state) :
    ∀ (n : Nat) (s : List state × List state), closure_inv fa seed s →
      closure_inv fa seed (closure_loop fa n s) := by
  intro n
  induction n with
  | zero => intro s h; exact h
  | succ n ih =>
    rintro ⟨st, e⟩ h
    cases st with
    | nil => exact h
    | cons top st => exact ih _ (closure_inv_step fa seed top st e h)

theorem closure_loop_closed (fa : finite_autometa) :
    ∀ (n : Nat) (st e : List state), (∀ x ∈ st, x ∈ e) → eps_closed fa e →
      (closure_loop fa n (st, e)).2 = e := by
  intro n
  induction n with
  | zero => intro st e _ _; rfl
  | succ n ih =>
    intro st e hst hcl
    cases st with
    | nil => rfl
    | cons top st =>
      simp only [closure_loop]
      rw [closure_scan_noop fa top fa.m_Q st e
        (fun q hq h => hcl top (hst top (List.mem_cons_self top st)) q ⟨hq, h⟩)]
      exact ih st e (fun x hx => hst x (List.mem_cons_of_mem top hx)) hcl

theorem push_all_eq_reverse (t : List state) :
    ∀ st : List state, t.foldl (fun st s => s :: st) st = t.reverse ++ st := by
  induction t with
  | nil => intro st; rfl
  | cons x xs ih => intro st; simp [ih]

theorem closure_set_init_inv (t : List state) (fa : finite_autometa) :
    closure_inv fa t (t.foldl (fun st s => s :: st) [], t) := by
  refine ⟨?_, fun x hx => hx, fun x hx => ⟨x, hx, Relation.ReflTransGen.refl⟩, ?_⟩
  · intro x hx
    rw [push_all_eq_reverse] at hx
    simpa using hx
  · intro x hx
    left
    rw [push_all_eq_reverse]
    simpa using hx

theorem closure_set_init_measure (t : List state) (fa : finite_autometa) :
    closure_measure fa (t.foldl (fun st s => s :: st) [], t) ≤ t.length + fa.m_Q.length := by
  simp only [closure_measure, push_all_eq_reverse, List.append_nil, List.length_reverse]
  exact Nat.add_le_add_left (List.countP_le_length _) _

/-- The budget of `epsilon_closure_set` is not exhausted: the loop is left
through its guard, with an empty stack. -/
theorem closure_set_stack_empty (t : List state) (fa : finite_autometa) :
    (closure_loop fa (t.length + fa.m_Q.length) (t.foldl (fun st s => s :: st) [], t)).1 = [] :=
  closure_loop_stack_empty fa _ _ (closure_set_init_measure t fa)

theorem closure_set_final_inv (t : List state) (fa : finite_autometa) :
    closure_inv fa t
      (closure_loop fa (t.length + fa.m_Q.length) (t.foldl (fun st s => s :: st) [], t)) :=
  closure_loop_inv fa t _ _ (closure_set_init_inv t fa)

theorem epsilon_closure_set_closed (t : List state) (fa : finite_autometa) :
    eps_closed fa (epsilon_closure_set t fa) := by
  intro x hx q hq
  have hinv := closure_set_final_inv t fa
  rcases hinv.pending x hx with h | h
  · rw [closure_set_stack_empty] at h
    simp at h
  · exact h q hq

theorem eps_closed_reach (fa : finite_autometa) (e : List state) (hcl : eps_closed fa e)
    (s x : state) (hs : s ∈ e) (h : Relation.ReflTransGen (eps_pred fa) s x) : x ∈ e := by
  induction h with
  | refl => exact hs
  | tail _ hstep ih => exact hcl _ ih _ hstep

/-- Membership in the result of `epsilon_closure_set`: the seed and the
declared states from which a chain of ε-transitions through declared states
leads into the seed. -/
theorem mem_epsilon_closure_set (t : List state) (fa : finite_autometa) (x : state) :
    x ∈ epsilon_closure_set t fa ↔ ∃ s ∈ t, Relation.ReflTransGen (eps_pred fa) s x := by
  constructor
  · intro hx
    exact (closure_set_final_inv t fa).sound x hx
  · rintro ⟨s, hs, hr⟩
    exact eps_closed_reach fa _ (epsilon_closure_set_closed t fa) s x
      ((closure_set_final_inv t fa).seed_sub s hs) hr

theorem epsilon_closure_eq_set (t : state) (fa : finite_autometa) :
    epsilon_closure t fa = epsilon_closure_set [t] fa := rfl

theorem mem_epsilon_closure (t : state) (fa : finite_autometa) (x : state) :
    x ∈ epsilon_closure t fa ↔ Relation.ReflTransGen (eps_pred fa) t x := by
  rw [epsilon_closure_eq_set, mem_epsilon_closure_set]
  simp

theorem epsilon_closure_set_fixed (e : List state) (fa : finite_autometa)
    (hcl : eps_closed fa e) : epsilon_closure_set e fa = e := by
  unfold epsilon_closure_set
  apply closure_loop_closed fa _ _ _ _ hcl
  intro x hx
  rw [push_all_eq_reverse] at hx
  simpa using hx

theorem epsilon_closure_set_nil (fa : finite_autometa) : epsilon_closure_set [] fa = [] :=
  epsilon_closure_set_fixed [] fa (fun x hx => by simp at hx)

theorem mem_set_union (A B : List state) (x : state) :
    x ∈ set_union A B ↔ x ∈ A ∨ x ∈ B :=
  mem_fold_insert B A x

/-! ## Ordered maps -/

theorem key_less_irrefl (k : List state × symbol) : key_less k k = false := by
  simp [key_less, set_less_irrefl, int_less]

theorem key_less_total (a b : List state × symbol) (h1 : key_less a b = false)
    (h2 : key_less b a = false) : a = b := by
  simp only [key_less, Bool.or_eq_false_iff, Bool.and_eq_false_iff, Bool.not_eq_false_eq_eq_true,
    Bool.not_eq_eq_eq_not, Bool.not_true] at h1 h2
  have e1 : a.1 = b.1 := set_less_total a.1 b.1 h1.1 h2.1
  have e2 : a.2 = b.2 := by
    apply int_less_total
    · rcases h1.2 with h | h
      · rw [h2.1] at h; cases h
      · exact h
    · rcases h2.2 with h | h
      · rw [h1.1] at h; cases h
      · exact h
  exact Prod.ext e1 e2

theorem map_find_mem {κ β : Type} [DecidableEq κ] (k : κ) (v : β) (m : List (κ × β))
    (h : map_find k m = some v) : (k, v) ∈ m := by
  induction m with
  | nil => simp [map_find] at h
  | cons e rest ih =>
    obtain ⟨k1, v1⟩ := e
    simp only [map_find] at h
    by_cases hk : k1 = k
    · simp only [hk, if_true, Option.some.injEq] at h
      simp [hk, h]
    · simp only [hk, if_false] at h
      exact List.mem_cons_of_mem _ (ih h)

theorem map_find_of_mem {κ β : Type} [DecidableEq κ] (k : κ) (v : β) (m : List (κ × β))
    (h : (k, v) ∈ m) : ∃ v1, map_find k m = some v1 := by
  induction m with
  | nil => simp at h
  | cons e rest ih =>
    obtain ⟨k1, v1⟩ := e
    simp only [map_find]
    by_cases hk : k1 = k
    · exact ⟨v1, by simp [hk]⟩
    · simp only [hk, if_false]
      rcases List.mem_cons.mp h with h1 | h1
      · exact absurd (congrArg Prod.fst h1).symm hk
      · exact ih h1

theorem map_find_none {κ β : Type} [DecidableEq κ] (k : κ) (m : List (κ × β))
    (h : ∀ v, (k, v) ∉ m) : map_find k m = none := by
  cases hf : map_find k m with
  | none => rfl
  | some v => exact absurd (map_find_mem k v m hf) (h v)

theorem map_find_unique {κ β : Type} [DecidableEq κ] (k : κ) (v : β) (m : List (κ × β))
    (hnd : (m.map Prod.fst).Nodup) (h : (k, v) ∈ m) : map_find k m = some v := by
  induction m with
  | nil => simp at h
  | cons e rest ih =>
    obtain ⟨k1, v1⟩ := e
    simp only [List.map_cons, List.nodup_cons, List.mem_map, not_exists, not_and] at hnd
    simp only [map_find]
    rcases List.mem_cons.mp h with h1 | h1
    · simp only [Prod.mk.injEq] at h1
      simp [h1.1, h1.2]
    · have hk : k1 ≠ k := fun hk => hnd.1 (k, v) h1 hk.symm
      simp only [hk, if_false]
      exact ih hnd.2 h1

theorem map_find_assign_same {κ β : Type} [DecidableEq κ] (lt : κ → κ → Bool)
    (hirr : ∀ a, lt a a = false)
    (htot : ∀ a b, lt a b = false → lt b a = false → a = b)
    (k : κ) (v : β) (m : List (κ × β)) :
    map_find k (map_assign lt k v m) = some v := by
  induction m with
  | nil => simp [map_assign, map_find]
  | cons e rest ih =>
    obtain ⟨k1, v1⟩ := e
    simp only [map_assign]
    cases h1 : lt k k1 with
    | true => simp [map_find]
    | false =>
      cases h2 : lt k1 k with
      | true =>
        have hk : k1 ≠ k := fun hk => by rw [hk, hirr] at h2; cases h2
        simp [map_find, hk, ih]
      | false =>
        have hk : k = k1 := htot k k1 h1 h2
        simp [map_find, hk]

theorem map_find_assign_other {κ β : Type} [DecidableEq κ] (lt : κ → κ → Bool)
    (htot : ∀ a b, lt a b = false → lt b a = false → a = b)
    (k k2 : κ) (v : β) (m : List (κ × β)) (hne : k2 ≠ k) :
    map_find k2 (map_assign lt k v m) = map_find k2 m := by
  induction m with
  | nil => simp [map_assign, map_find, Ne.symm hne]
  | cons e rest ih =>
    obtain ⟨k1, v1⟩ := e
    simp only [map_assign]
    cases h1 : lt k k1 with
    | true => simp [map_find, Ne.symm hne]
    | false =>
      cases h2 : lt k1 k with
      | true => simp [map_find, ih]
      | false =>
        have hk : k = k1 := htot k k1 h1 h2
        have hne2 : k1 ≠ k2 := fun h => hne (h.symm.trans hk.symm)
        simp [map_find, hne2]

theorem mem_map_assign {κ β : Type} (lt : κ → κ → Bool)
    (htot : ∀ a b, lt a b = false → lt b a = false → a = b)
    (k : κ) (v : β) (m : List (κ × β)) (e : κ × β) (he : e ∈ map_assign lt k v m) :
    e = (k, v) ∨ e ∈ m := by
  induction m with
  | nil => simpa [map_assign] using he
  | cons e1 rest ih =>
    obtain ⟨k1, v1⟩ := e1
    simp only [map_assign] at he
    cases h1 : lt k k1 with
    | true =>
      simp only [h1, if_true, List.mem_cons] at he
      simpa using he
    | false =>
      cases h2 : lt k1 k with
      | true =>
        simp only [h1, h2, if_true, Bool.false_eq_true, if_false, List.mem_cons] at he
        rcases he with he | he
        · exact Or.inr (List.mem_cons.mpr (Or.inl he))
        · rcases ih he with h | h
          · exact Or.inl h
          · exact Or.inr (List.mem_cons_of_mem _ h)
      | false =>
        have hk : k = k1 := htot k k1 h1 h2
        simp only [h1, h2, Bool.false_eq_true, if_false, List.mem_cons] at he
        rcases he with he | he
        · exact Or.inl (by rw [he, hk])
        · exact Or.inr (List.mem_cons_of_mem _ he)

/-! ## Ordered sets stay ordered and free of duplicates -/

theorem set_insert_perm {α : Type} (lt : α → α → Bool)
    (htot : ∀ a b, lt a b = false → lt b a = false → a = b) (x : α) (l : List α)
    (hx : x ∉ l) : (set_insert lt x l).Perm (x :: l) := by
  induction l with
  | nil => simp [set_insert]
  | cons y ys ih =>
    simp only [set_insert]
    cases h1 : lt x y with
    | true => simp
    | false =>
      cases h2 : lt y x with
      | true =>
        simp only [if_true, Bool.false_eq_true, if_false]
        have hx2 : x ∉ ys := fun h => hx (List.mem_cons_of_mem y h)
        exact ((ih hx2).cons y).trans (List.Perm.swap x y ys)
      | false =>
        exact absurd (htot x y h1 h2 ▸ List.mem_cons_self x ys) hx

theorem set_insert_sorted (x : state) (l : List state) (hl : l.Sorted (· < ·)) :
    (set_insert int_less x l).Sorted (· < ·) := by
  induction l with
  | nil => simp [set_insert]
  | cons y ys ih =>
    simp only [set_insert, int_less]
    have hy := List.sorted_cons.mp hl
    by_cases h1 : x < y
    · simp only [h1, decide_True, if_true]
      refine List.sorted_cons.mpr ⟨?_, hl⟩
      intro b hb
      rcases List.mem_cons.mp hb with h | h
      · rw [h]; exact h1
      · exact lt_trans h1 (hy.1 b h)
    · by_cases h2 : y < x
      · simp only [h1, h2, decide_True, decide_False, if_true, Bool.false_eq_true, if_false]
        refine List.sorted_cons.mpr ⟨?_, ih hy.2⟩
        intro b hb
        rcases (mem_insert_state x b ys).mp hb with h | h
        · rw [h]; exact h2
        · exact hy.1 b h
      · simpa [h1, h2] using hl

theorem fold_insert_sorted (l : List state) : ∀ init : List state,
    init.Sorted (· < ·) →
      (l.foldl (fun acc dest_state => set_insert int_less dest_state acc) init).Sorted (· < ·) := by
  induction l with
  | nil => intro init h; exact h
  | cons x xs ih => intro init h; exact ih _ (set_insert_sorted x init h)

theorem move_set_sorted (fa : finite_autometa) (S : List state) (c : symbol) :
    (fa.move_set S c).Sorted (· < ·) := by
  unfold finite_autometa.move_set
  suffices h : ∀ init : List state, init.Sorted (· < ·) →
      (S.foldl
        (fun destination_set current_state =>
          (fa.move current_state c).foldl
            (fun acc dest_state => set_insert int_less dest_state acc) destination_set)
        init).Sorted (· < ·) from h [] List.sorted_nil
  induction S with
  | nil => intro init h; exact h
  | cons x xs ih => intro init h; exact ih _ (fold_insert_sorted _ init h)

theorem closure_scan_sorted (fa : finite_autometa) (top : state) (qs : List state) :
    ∀ (st e : List state), e.Sorted (· < ·) →
      (closure_scan fa top qs (st, e)).2.Sorted (· < ·) := by
  induction qs with
  | nil => intro st e h; exact h
  | cons q rest ih =>
    intro st e h
    simp only [closure_scan]
    split
    · exact ih _ _ (set_insert_sorted q e h)
    · exact ih _ _ h

theorem closure_loop_sorted (fa : finite_autometa) :
    ∀ (n : Nat) (s : List state × List state), s.2.Sorted (· < ·) →
      (closure_loop fa n s).2.Sorted (· < ·) := by
  intro n
  induction n with
  | zero => intro s h; exact h
  | succ n ih =>
    rintro ⟨st, e⟩ h
    cases st with
    | nil => exact h
    | cons top st => exact ih _ (closure_scan_sorted fa top fa.m_Q st e h)

theorem epsilon_closure_set_sorted (t : List state) (fa : finite_autometa)
    (ht : t.Sorted (· < ·)) : (epsilon_closure_set t fa).Sorted (· < ·) :=
  closure_loop_sorted fa _ _ ht

theorem mem_move_universe (fa : finite_autometa) (q : state) (c : symbol) (d : state)
    (hd : d ∈ fa.move q c) : d ∈ state_universe fa := by
  unfold finite_autometa.move at hd
  cases hf : map_find (q, c) fa.m_tr with
  | none => simp [hf] at hd
  | some v =>
    simp only [hf] at hd
    have hm := map_find_mem (q, c) v fa.m_tr hf
    simp only [state_universe, List.mem_cons, List.mem_append, List.mem_flatten, List.mem_map]
    exact Or.inr (Or.inr ⟨v, ⟨((q, c), v), hm, rfl⟩, hd⟩)

theorem mem_closure_universe (t : List state) (fa : finite_autometa)
    (ht : ∀ x ∈ t, x ∈ state_universe fa) (x : state) (hx : x ∈ epsilon_closure_set t fa) :
    x ∈ state_universe fa := by
  obtain ⟨s, hs, hr⟩ := (mem_epsilon_closure_set t fa x).mp hx
  rcases Relation.ReflTransGen.cases_tail hr with h | ⟨y, _, hstep⟩
  · exact h ▸ ht s hs
  · simp only [state_universe, List.mem_cons, List.mem_append]
    exact Or.inr (Or.inl hstep.1)

theorem closure_move_wf (nfa : finite_autometa) (T : dfa_state) (c : symbol) :
    dfa_state_wf nfa (epsilon_closure_set (nfa.move_set T c) nfa) := by
  refine ⟨epsilon_closure_set_sorted _ nfa (move_set_sorted nfa T c), ?_⟩
  apply mem_closure_universe
  intro x hx
  obtain ⟨s, _, hs⟩ := (mem_move_set nfa T c x).mp hx
  exact mem_move_universe nfa s c x hs

theorem start_state_wf (nfa : finite_autometa) :
    dfa_state_wf nfa (epsilon_closure nfa.m_q0 nfa) := by
  rw [epsilon_closure_eq_set]
  refine ⟨epsilon_closure_set_sorted _ nfa (List.sorted_singleton _), ?_⟩
  apply mem_closure_universe
  intro x hx
  simp only [List.mem_singleton] at hx
  simp [state_universe, hx]

theorem sorted_toFinset_inj (l1 l2 : List state) (h1 : l1.Sorted (· < ·))
    (h2 : l2.Sorted (· < ·)) (h : l1.toFinset = l2.toFinset) : l1 = l2 :=
  List.eq_of_perm_of_sorted
    (List.perm_of_nodup_nodup_toFinset_eq h1.nodup h2.nodup h) h1 h2

theorem dfa_states_length_le (nfa : finite_autometa) (D : List dfa_state) (hnd : D.Nodup)
    (hwf : ∀ T ∈ D, dfa_state_wf nfa T) : D.length ≤ 2 ^ (state_universe nfa).length := by
  have hinj : (D.map List.toFinset).Nodup := by
    apply List.Nodup.map_on _ hnd
    intro a ha b hb hab
    exact sorted_toFinset_inj a b (hwf a ha).1 (hwf b hb).1 hab
  have hsub : (D.map List.toFinset).toFinset ⊆ (state_universe nfa).toFinset.powerset := by
    intro F hF
    simp only [List.mem_toFinset, List.mem_map] at hF
    obtain ⟨T, hT, rfl⟩ := hF
    rw [Finset.mem_powerset]
    intro x hx
    rw [List.mem_toFinset] at hx ⊢
    exact (hwf T hT).2 x hx
  have hcard := Finset.card_le_card hsub
  rw [List.toFinset_card_of_nodup hinj, List.length_map, Finset.card_powerset] at hcard
  exact le_trans hcard
    (Nat.pow_le_pow_right (by norm_num) (List.toFinset_card_le (state_universe nfa)))

/-! ## The loop of `convert` -/

theorem convert_discover_inner (nfa : finite_autometa) (T : dfa_state)
    (pending : List symbol) (u : dfa_state) (s : convert_state)
    (hu : dfa_state_wf nfa u) (h : convert_inner nfa T pending s) :
    convert_inner nfa T pending (convert_discover u s) ∧
      u ∈ (convert_discover u s).dfa_states ∧
      (convert_discover u s).dfa_trans = s.dfa_trans ∧
      (convert_discover u s).dfa_states.length + s.unmarked_states.length =
        s.dfa_states.length + (convert_discover u s).unmarked_states.length := by
  unfold convert_discover
  by_cases hmem : u ∈ s.dfa_states
  · rw [if_pos hmem]
    exact ⟨h, hmem, rfl, rfl⟩
  · rw [if_neg hmem]
    have hun : u ∉ s.unmarked_states := fun hc => hmem (h.base.unmarked_sub u hc)
    have hp1 := set_insert_perm set_less set_less_total u s.dfa_states hmem
    have hp2 := set_insert_perm set_less set_less_total u s.unmarked_states hun
    refine ⟨⟨⟨?_, ?_, ?_, ?_, ?_, ?_⟩, ?_, ?_, ?_, ?_⟩, ?_, rfl, ?_⟩
    · exact (mem_insert_dfa_state _ _ _).mpr (Or.inr h.base.start_mem)
    · intro T1 hT1
      rcases (mem_insert_dfa_state _ _ _).mp hT1 with h1 | h1
      · exact (mem_insert_dfa_state _ _ _).mpr (Or.inl h1)
      · exact (mem_insert_dfa_state _ _ _).mpr (Or.inr (h.base.unmarked_sub T1 h1))
    · intro T1 c v hv
      obtain ⟨h1, h2, h3, h4⟩ := h.base.entries T1 c v hv
      exact ⟨(mem_insert_dfa_state _ _ _).mpr (Or.inr h1), h2, h3,
        (mem_insert_dfa_state _ _ _).mpr (Or.inr h4)⟩
    · exact hp1.nodup_iff.mpr (List.nodup_cons.mpr ⟨hmem, h.base.states_nodup⟩)
    · exact hp2.nodup_iff.mpr (List.nodup_cons.mpr ⟨hun, h.base.unmarked_nodup⟩)
    · intro T1 hT1
      rcases (mem_insert_dfa_state _ _ _).mp hT1 with h1 | h1
      · exact h1 ▸ hu
      · exact h.base.states_wf T1 h1
    · exact (mem_insert_dfa_state _ _ _).mpr (Or.inr h.T_mem)
    · intro hc
      rcases (mem_insert_dfa_state _ _ _).mp hc with h1 | h1
      · exact hmem (h1 ▸ h.T_mem)
      · exact h.T_marked h1
    · intro T1 hT1 hT1u hne c hc
      have hne2 : T1 ≠ u := fun he => hT1u ((mem_insert_dfa_state _ _ _).mpr (Or.inl he))
      have h1 : T1 ∈ s.dfa_states := by
        rcases (mem_insert_dfa_state _ _ _).mp hT1 with h1 | h1
        · exact absurd h1 hne2
        · exact h1
      have h2 : T1 ∉ s.unmarked_states := fun hc2 =>
        hT1u ((mem_insert_dfa_state _ _ _).mpr (Or.inr hc2))
      exact h.others_done T1 h1 h2 hne c hc
    · exact h.T_done
    · exact (mem_insert_dfa_state _ _ _).mpr (Or.inl rfl)
    · simp only [hp1.length_eq, hp2.length_eq, List.length_cons]
      omega

theorem convert_symbol_inner (nfa : finite_autometa) (T : dfa_state) (c : symbol)
    (rest : List symbol) (s : convert_state) (hc : c ∈ nfa.m_input)
    (h : convert_inner nfa T (c :: rest) s) :
    convert_inner nfa T rest (convert_symbol nfa T s c) ∧
      (convert_symbol nfa T s c).dfa_states.length + s.unmarked_states.length =
        s.dfa_states.length + (convert_symbol nfa T s c).unmarked_states.length := by
  obtain ⟨h1, hu, htr, hlen⟩ := convert_discover_inner nfa T (c :: rest)
    (epsilon_closure_set (nfa.move_set T c) nfa) s (closure_move_wf nfa T c) h
  simp only [convert_symbol]
  refine ⟨⟨⟨h1.base.start_mem, h1.base.unmarked_sub, ?_, h1.base.states_nodup,
    h1.base.unmarked_nodup, h1.base.states_wf⟩, h1.T_mem, h1.T_marked, ?_, ?_⟩, hlen⟩
  · intro T1 c1 v hv
    rcases mem_map_assign key_less key_less_total _ _ _ _ hv with h2 | h2
    · simp only [Prod.mk.injEq] at h2
      obtain ⟨⟨e1, e2⟩, e3⟩ := h2
      subst e1 e2 e3
      exact ⟨h1.T_mem, hc, rfl, hu⟩
    · exact h1.base.entries T1 c1 v h2
  · intro T1 hT1 hT1u hne c1 hc1
    rw [map_find_assign_other key_less key_less_total]
    · exact h1.others_done T1 hT1 hT1u hne c1 hc1
    · intro he
      exact hne (congrArg Prod.fst he)
  · intro c1 hc1 hc1r
    by_cases hcc : c1 = c
    · subst hcc
      exact map_find_assign_same key_less key_less_irrefl key_less_total _ _ _
    · rw [map_find_assign_other key_less key_less_total]
      · exact h1.T_done c1 hc1 (fun hm => by
          rcases List.mem_cons.mp hm with h3 | h3
          · exact hcc h3
          · exact hc1r h3)
      · intro he
        exact hcc (congrArg Prod.snd he)

theorem convert_fold_inner (nfa : finite_autometa) (T : dfa_state) (cs : List symbol) :
    ∀ s : convert_state, (∀ c ∈ cs, c ∈ nfa.m_input) → convert_inner nfa T cs s →
      convert_inner nfa T [] (cs.foldl (convert_symbol nfa T) s) ∧
        (cs.foldl (convert_symbol nfa T) s).dfa_states.length + s.unmarked_states.length =
          s.dfa_states.length + (cs.foldl (convert_symbol nfa T) s).unmarked_states.length := by
  induction cs with
  | nil => intro s _ h; exact ⟨h, rfl⟩
  | cons c rest ih =>
    intro s hsub h
    obtain ⟨h1, hl1⟩ := convert_symbol_inner nfa T c rest s (hsub c (List.mem_cons_self c rest)) h
    obtain ⟨h2, hl2⟩ := ih (convert_symbol nfa T s c)
      (fun c1 hc1 => hsub c1 (List.mem_cons_of_mem c hc1)) h1
    refine ⟨h2, ?_⟩
    simp only [List.foldl_cons]
    omega

theorem convert_step_inv (nfa : finite_autometa) (s : convert_state) (T : dfa_state)
    (rest : List dfa_state) (hun : s.unmarked_states = T :: rest) (h : convert_inv nfa s) :
    convert_inv nfa
        (nfa.m_input.foldl (convert_symbol nfa T) { s with unmarked_states := rest }) ∧
      convert_measure nfa
        (nfa.m_input.foldl (convert_symbol nfa T) { s with unmarked_states := rest }) + 1 ≤
        convert_measure nfa s := by
  have hnd : (T :: rest).Nodup := hun ▸ h.base.unmarked_nodup
  have hT : T ∈ s.dfa_states := h.base.unmarked_sub T (hun ▸ List.mem_cons_self T rest)
  have hin : convert_inner nfa T nfa.m_input { s with unmarked_states := rest } := by
    refine ⟨⟨h.base.start_mem, ?_, h.base.entries, h.base.states_nodup,
      (List.nodup_cons.mp hnd).2, h.base.states_wf⟩, hT, (List.nodup_cons.mp hnd).1, ?_, ?_⟩
    · intro T1 hT1
      exact h.base.unmarked_sub T1 (hun ▸ List.mem_cons_of_mem T hT1)
    · intro T1 hT1 hT1u hne c hc
      apply h.marked_done T1 hT1 _ c hc
      rw [hun]
      intro hm
      rcases List.mem_cons.mp hm with h3 | h3
      · exact hne h3
      · exact hT1u h3
    · intro c hc hcn
      exact absurd hc hcn
  obtain ⟨h2, hl⟩ := convert_fold_inner nfa T nfa.m_input _ (fun _ hc => hc) hin
  refine ⟨⟨h2.base, ?_⟩, ?_⟩
  · intro T1 hT1 hT1u c hc
    by_cases hne : T1 = T
    · subst hne
      exact h2.T_done c hc (by simp)
    · exact h2.others_done T1 hT1 hT1u hne c hc
  · have hb := dfa_states_length_le nfa _ h2.base.states_nodup h2.base.states_wf
    have hb0 := dfa_states_length_le nfa _ h.base.states_nodup h.base.states_wf
    simp only [convert_measure, hun, List.length_cons] at hl ⊢
    omega

theorem convert_loop_spec (nfa : finite_autometa) :
    ∀ (n : Nat) (s : convert_state), convert_inv nfa s → convert_measure nfa s ≤ n →
      convert_inv nfa (convert_loop nfa n s) ∧ (convert_loop nfa n s).unmarked_states = [] := by
  intro n
  induction n with
  | zero =>
    intro s h hm
    simp only [convert_measure] at hm
    have : s.unmarked_states.length = 0 := by omega
    exact ⟨h, List.length_eq_zero.mp this⟩
  | succ n ih =>
    intro s h hm
    simp only [convert_loop]
    cases hun : s.unmarked_states with
    | nil => exact ⟨h, hun⟩
    | cons T rest =>
      obtain ⟨h1, hm1⟩ := convert_step_inv nfa s T rest hun h
      exact ih _ h1 (by omega)

theorem convert_init_inv (nfa : finite_autometa) : convert_inv nfa (convert_init nfa) := by
  refine ⟨⟨?_, ?_, ?_, ?_, ?_, ?_⟩, ?_⟩
  · simp [convert_init]
  · simp [convert_init]
  · simp [convert_init]
  · simp [convert_init]
  · simp [convert_init]
  · intro T hT
    simp only [convert_init, List.mem_singleton] at hT
    exact hT ▸ start_state_wf nfa
  · intro T hT hTu
    simp only [convert_init, List.mem_singleton] at hT hTu
    exact absurd hT hTu

theorem convert_init_measure (nfa : finite_autometa) :
    convert_measure nfa (convert_init nfa) ≤ 2 ^ (state_universe nfa).length := by
  have h : 0 < 2 ^ (state_universe nfa).length := Nat.pow_pos (by norm_num)
  simp only [convert_measure, convert_init, List.length_singleton]
  omega

theorem convert_final_inv (nfa : finite_autometa) : convert_inv nfa (convert_final nfa) :=
  (convert_loop_spec nfa _ _ (convert_init_inv nfa) (convert_init_measure nfa)).1

/-- The budget of `convert` is not exhausted: the loop is left through its
guard, with `unmarked_states` empty. -/
theorem convert_final_unmarked (nfa : finite_autometa) :
    (convert_final nfa).unmarked_states = [] :=
  (convert_loop_spec nfa _ _ (convert_init_inv nfa) (convert_init_measure nfa)).2

theorem produced_mem_states (nfa : finite_autometa) (T : dfa_state)
    (h : dfa_state_produced nfa T) : T ∈ (convert_final nfa).dfa_states := by
  have hinv := convert_final_inv nfa
  rcases h with h | ⟨e, he, rfl⟩ | ⟨e, he, rfl⟩
  · exact h ▸ hinv.base.start_mem
  · exact (hinv.base.entries e.1.1 e.1.2 e.2 he).1
  · exact (hinv.base.entries e.1.1 e.1.2 e.2 he).2.2.2

theorem convert_find (nfa : finite_autometa) (T : dfa_state) (c : symbol)
    (hT : T ∈ (convert_final nfa).dfa_states) (hc : c ∈ nfa.m_input) :
    map_find (T, c) (convert nfa) = some (epsilon_closure_set (nfa.move_set T c) nfa) := by
  apply (convert_final_inv nfa).marked_done T hT _ c hc
  rw [convert_final_unmarked]
  simp

/-! ## The properties -/

/-- C1 (language equivalence), evaluated where it fails: `eps_nfa` is a
well-formed automaton that accepts the word `a` (by `1 -a-> 2 -ε-> 3`), but the
run of the table returned by `convert` from `s0` over `a` ends in `{2}`, which
does not meet the accepting states. -/
theorem convert_rejects_accepted_word :
    eps_nfa.valid ∧ well_formed eps_nfa ∧ (∀ c ∈ [(97 : symbol)], c ∈ eps_nfa.m_input) ∧
      nfa_accepts eps_nfa [97] ∧
      table_run (convert eps_nfa) (epsilon_closure eps_nfa.m_q0 eps_nfa) [97] = some [2] ∧
      dfa_accepts eps_nfa [97] = false := by
  refine ⟨by unfold finite_autometa.valid; decide, by unfold well_formed; decide, by decide,
    ?_, by decide, by decide⟩
  exact ⟨3, by decide,
    nfa_reach.step 1 2 3 97 [] (by decide) (nfa_reach.eps 2 3 3 [] (by decide) (nfa_reach.done 3))⟩

/-- C2 (concrete scenario) does not hold as stated: on the automaton of `main`
it is not the case that `convert` produces the three DFA states `{1}`, `{1,2}`,
`{1,2,3}` with `({1},a) -> {1}`, `({1},b) -> {1,2}`, `({1,2},a) -> {1,2}`,
`({1,2},b) -> {1,2,3}` and `{1,2,3}` mapped to itself on `a` and `b`. -/
theorem main_scenario_three_states_false :
    ¬((convert_final main_nfa).dfa_states = [[1], [1, 2], [1, 2, 3]] ∧
      map_find ([1], 97) (convert main_nfa) = some [1] ∧
      map_find ([1], 98) (convert main_nfa) = some [1, 2] ∧
      map_find ([1, 2], 97) (convert main_nfa) = some [1, 2] ∧
      map_find ([1, 2], 98) (convert main_nfa) = some [1, 2, 3] ∧
      map_find ([1, 2, 3], 97) (convert main_nfa) = some [1, 2, 3] ∧
      map_find ([1, 2, 3], 98) (convert main_nfa) = some [1, 2, 3]) := by
  decide

/-- C2 (concrete scenario), amended: on the automaton of `main`, `convert`
produces the six DFA states `{1}`, `{1,2}`, `{1,2,3}`, `{2}`, `{2,3}`, `{3}`,
with `({1},a) -> {1}`, `({1},b) -> {2}`, `({1,2},a) -> {1,2}`,
`({1,2},b) -> {2,3}`, `({1,2,3},a) -> {1,2,3}` and `({1,2,3},b) -> {2,3}`. -/
theorem main_scenario_six_states :
    (convert_final main_nfa).dfa_states = [[1], [1, 2], [1, 2, 3], [2], [2, 3], [3]] ∧
      map_find ([1], 97) (convert main_nfa) = some [1] ∧
      map_find ([1], 98) (convert main_nfa) = some [2] ∧
      map_find ([1, 2], 97) (convert main_nfa) = some [1, 2] ∧
      map_find ([1, 2], 98) (convert main_nfa) = some [2, 3] ∧
      map_find ([1, 2, 3], 97) (convert main_nfa) = some [1, 2, 3] ∧
      map_find ([1, 2, 3], 98) (convert main_nfa) = some [2, 3] := by
  decide

/-- C3 (empty-destination case) does not hold as stated: in the well-formed
automaton `dead_nfa` the start state `{1}` has no move on `b`, the closure of
the move is empty, and yet the returned table has an entry under `({1}, b)`,
whose value is the empty set. -/
theorem empty_destination_has_entry :
    well_formed dead_nfa ∧ dfa_state_produced dead_nfa [1] ∧
      (98 : symbol) ∈ dead_nfa.m_input ∧
      epsilon_closure_set (dead_nfa.move_set [1] 98) dead_nfa = [] ∧
      ¬(¬table_has_key (convert dead_nfa) [1] 98 ∧
        ∀ e ∈ convert dead_nfa, e.1.1 ≠ [] ∧ e.2 ≠ []) := by
  refine ⟨by unfold well_formed; decide, Or.inl (by decide), by decide, by decide, ?_⟩
  intro h
  exact h.1 ⟨(([1], 98), []), by decide, rfl⟩

/-- C3 (empty-destination case), amended: for every automaton, every DFA state
`T` produced by `convert` and every alphabet symbol `c` such that
`epsilon_closure (move (T, c))` is empty, the returned table maps the key
`(T, c)` to the empty set, which is thus a value of the table. -/
theorem empty_destination_entry (nfa : finite_autometa) (T : dfa_state) (c : symbol)
    (hT : dfa_state_produced nfa T) (hc : c ∈ nfa.m_input)
    (hu : epsilon_closure_set (nfa.move_set T c) nfa = []) :
    map_find (T, c) (convert nfa) = some [] ∧ ((T, c), []) ∈ convert nfa := by
  have h := convert_find nfa T c (produced_mem_states nfa T hT) hc
  rw [hu] at h
  exact ⟨h, map_find_mem _ _ _ h⟩

/-- C3, amended, at `dead_nfa`, the state `{1}` and the symbol `b`. -/
theorem empty_destination_entry_witness :
    map_find ([1], 98) (convert dead_nfa) = some [] ∧ (([1], 98), []) ∈ convert dead_nfa :=
  empty_destination_entry dead_nfa [1] 98 (Or.inl (by decide)) (by decide) (by decide)

/-- C4 (epsilon-closure definition), evaluated where it fails: in `eps_nfa`
state 3 is in `move (2, ε)`, but `epsilon_closure (2)` is `{2}` and does not
contain 3; the closure of 3 is `{2, 3}`, the states with ε-transitions into 3. -/
theorem epsilon_closure_misses_successor :
    well_formed eps_nfa ∧ (3 : state) ∈ eps_nfa.move 2 epsilon ∧
      epsilon_closure 2 eps_nfa = [2] ∧ (3 : state) ∉ epsilon_closure 2 eps_nfa ∧
      epsilon_closure 3 eps_nfa = [2, 3] := by
  refine ⟨by unfold well_formed; decide, by decide, by decide, by decide, by decide⟩

/-- C5 (idempotence of epsilon-closure): for every automaton and every set of
states `S`, `epsilon_closure (epsilon_closure (S))` equals
`epsilon_closure (S)`. -/
theorem epsilon_closure_set_idempotent (fa : finite_autometa) (S : List state) :
    epsilon_closure_set (epsilon_closure_set S fa) fa = epsilon_closure_set S fa :=
  epsilon_closure_set_fixed _ fa (epsilon_closure_set_closed S fa)

/-- C6 (closure superset law): for every automaton, every member of a set `S`
is a member of `epsilon_closure (S)`, and every state `t` is a member of
`epsilon_closure (t)`. -/
theorem epsilon_closure_superset (fa : finite_autometa) (S : List state) (t : state) :
    (∀ x ∈ S, x ∈ epsilon_closure_set S fa) ∧ t ∈ epsilon_closure t fa :=
  ⟨fun x hx => (mem_epsilon_closure_set S fa x).mpr ⟨x, hx, Relation.ReflTransGen.refl⟩,
    (mem_epsilon_closure t fa t).mpr Relation.ReflTransGen.refl⟩

/-- C7 (set closure is the union of single-state closures): for every automaton
and every set `T`, the members of `epsilon_closure (T)` are the union over `t` in
`T` of the members of `epsilon_closure (t)`; the closure of `{t}` is the closure
of `t`, and the closure of a union is the union of the closures. -/
theorem epsilon_closure_set_is_union (fa : finite_autometa) (T A B : List state)
    (t : state) :
    (epsilon_closure_set T fa).toFinset =
        T.toFinset.biUnion (fun t => (epsilon_closure t fa).toFinset) ∧
      epsilon_closure_set [t] fa = epsilon_closure t fa ∧
      (epsilon_closure_set (set_union A B) fa).toFinset =
        (epsilon_closure_set A fa).toFinset ∪ (epsilon_closure_set B fa).toFinset := by
  refine ⟨?_, rfl, ?_⟩
  · ext x
    simp only [List.mem_toFinset, Finset.mem_biUnion, mem_epsilon_closure_set,
      mem_epsilon_closure]
  · ext x
    simp only [List.mem_toFinset, Finset.mem_union, mem_epsilon_closure_set, mem_set_union]
    constructor
    · rintro ⟨s, hs | hs, hr⟩
      · exact Or.inl ⟨s, hs, hr⟩
      · exact Or.inr ⟨s, hs, hr⟩
    · rintro (⟨s, hs, hr⟩ | ⟨s, hs, hr⟩)
      · exact ⟨s, Or.inl hs, hr⟩
      · exact ⟨s, Or.inr hs, hr⟩

/-- C8 (single-state move): for every automaton whose transition relation has
one entry per key, `move (q, c)` is the destination set recorded under the key
`(q, c)` when there is one, and the empty set when there is none. -/
theorem move_spec (fa : finite_autometa) (q : state) (c : symbol)
    (hkeys : (fa.m_tr.map Prod.fst).Nodup) :
    (∀ d, ((q, c), d) ∈ fa.m_tr → fa.move q c = d) ∧
      ((∀ d, ((q, c), d) ∉ fa.m_tr) → fa.move q c = []) := by
  constructor
  · intro d hd
    simp [finite_autometa.move, map_find_unique (q, c) d fa.m_tr hkeys hd]
  · intro hnone
    simp [finite_autometa.move, map_find_none (q, c) fa.m_tr hnone]

/-- C8 at the automaton of `main`: `move (2, a)` is `{1, 2}` and `move (2, ε)`
is empty. -/
theorem move_spec_witness :
    main_nfa.move 2 97 = [1, 2] ∧ main_nfa.move 2 epsilon = [] :=
  ⟨(move_spec main_nfa 2 97 (by decide)).1 [1, 2] (by decide),
    (move_spec main_nfa 2 epsilon (by decide)).2 (fun d hd => by
      simp [main_nfa, epsilon] at hd)⟩

/-- C9 (set move): for every automaton, set `S` and symbol `c`, `move (S, c)`
is the union of `move (s, c)` over the members `s` of `S`: a state is in
`move (S, c)` exactly when it is in `move (s, c)` for some `s` in `S`, and
`move (∅, c)` is empty. -/
theorem move_set_is_union (fa : finite_autometa) (S : List state) (c : symbol) :
    (fa.move_set S c).toFinset = S.toFinset.biUnion (fun s => (fa.move s c).toFinset) ∧
      (∀ d, d ∈ fa.move_set S c ↔ ∃ s ∈ S, d ∈ fa.move s c) ∧
      fa.move_set [] c = [] := by
  refine ⟨?_, mem_move_set fa S c, rfl⟩
  ext d
  simp only [List.mem_toFinset, Finset.mem_biUnion, mem_move_set]

/-- C10 (totality within the alphabet): for every automaton, every DFA state
`T` produced by `convert` (`s0`, a key state or a value of the returned table)
and every symbol `c` of the declared alphabet, either the returned table has
the key `(T, c)` or `epsilon_closure (move (T, c))` is empty. -/
theorem convert_total_on_alphabet (nfa : finite_autometa) (T : dfa_state) (c : symbol)
    (hT : dfa_state_produced nfa T) (hc : c ∈ nfa.m_input) :
    table_has_key (convert nfa) T c ∨
      epsilon_closure_set (nfa.move_set T c) nfa = [] :=
  Or.inl ⟨((T, c), epsilon_closure_set (nfa.move_set T c) nfa),
    map_find_mem _ _ _ (convert_find nfa T c (produced_mem_states nfa T hT) hc), rfl⟩

/-- C10 at the automaton of `main`, the state `{2, 3}` (a value of the table)
and the symbol `b`. -/
theorem convert_total_on_alphabet_witness :
    table_has_key (convert main_nfa) [2, 3] 98 ∨
      epsilon_closure_set (main_nfa.move_set [2, 3] 98) main_nfa = [] :=
  convert_total_on_alphabet main_nfa [2, 3] 98
    (Or.inr (Or.inr ⟨(([1, 2], 98), [2, 3]), by decide, rfl⟩)) (by decide)

/-! ## Budgets do not matter once a loop has been left -/

theorem closure_loop_stable (fa : finite_autometa) :
    ∀ (n : Nat) (s : List state × List state), (closure_loop fa n s).1 = [] →
      ∀ m, n ≤ m → closure_loop fa m s = closure_loop fa n s := by
  intro n
  induction n with
  | zero =>
    rintro ⟨st, e⟩ h m _
    simp only [closure_loop] at h
    subst h
    cases m <;> rfl
  | succ n ih =>
    rintro ⟨st, e⟩ h m hm
    obtain ⟨m, rfl⟩ : ∃ k, m = k + 1 := ⟨m - 1, by omega⟩
    cases st with
    | nil => rfl
    | cons top st =>
      simp only [closure_loop] at h ⊢
      exact ih _ h m (by omega)

theorem convert_loop_stable (nfa : finite_autometa) :
    ∀ (n : Nat) (s : convert_state), (convert_loop nfa n s).unmarked_states = [] →
      ∀ m, n ≤ m → convert_loop nfa m s = convert_loop nfa n s := by
  intro n
  induction n with
  | zero =>
    intro s h m _
    simp only [convert_loop] at h
    cases m with
    | zero => rfl
    | succ m => simp only [convert_loop, h]
  | succ n ih =>
    intro s h m hm
    obtain ⟨m, rfl⟩ : ∃ k, m = k + 1 := ⟨m - 1, by omega⟩
    simp only [convert_loop] at h ⊢
    cases hun : s.unmarked_states with
    | nil => rfl
    | cons T rest =>
      simp only [hun] at h
      exact ih _ h m (by omega)

theorem closure_scan_grows (fa : finite_autometa) (top : state) (qs st e : List state)
    (x : state) (hx : x ∈ e) : x ∈ (closure_scan fa top qs (st, e)).2 :=
  (closure_scan_mem_set fa top qs st e x).mpr (Or.inl hx)

theorem mem_closure_seed_or_declared (t : List state) (fa : finite_autometa) (x : state)
    (hx : x ∈ epsilon_closure_set t fa) : x ∈ t ∨ x ∈ fa.m_Q := by
  obtain ⟨s, hs, hr⟩ := (mem_epsilon_closure_set t fa x).mp hx
  rcases Relation.ReflTransGen.cases_tail hr with h | ⟨y, _, hstep⟩
  · exact Or.inl (h ▸ hs)
  · exact Or.inr hstep.1

theorem nfa_reach_eps_last (fa : finite_autometa) (q p r : state) (w : List symbol)
    (h : nfa_reach fa q w p) (hr : r ∈ fa.move p epsilon) : nfa_reach fa q w r := by
  induction h with
  | done q => exact nfa_reach.eps q r r [] hr (nfa_reach.done r)
  | eps q r1 p w h1 _ ih => exact nfa_reach.eps q r1 r w h1 (ih hr)
  | step q r1 p c w h1 _ ih => exact nfa_reach.step q r1 r c w h1 (ih hr)

theorem epsilon_closure_set_eq_nil (fa : finite_autometa) (S : List state) :
    epsilon_closure_set S fa = [] ↔ S = [] := by
  constructor
  · intro h
    cases S with
    | nil => rfl
    | cons x xs =>
      have hx : x ∈ epsilon_closure_set (x :: xs) fa :=
        (mem_epsilon_closure_set _ fa x).mpr
          ⟨x, List.mem_cons_self x xs, Relation.ReflTransGen.refl⟩
      rw [h] at hx
      simp at hx
  · intro h
    rw [h, epsilon_closure_set_nil]

/-! ## Draining `unmarked_states` in any order -/

theorem convert_step_perm (nfa : finite_autometa) (s : convert_state) (T : dfa_state)
    (rest : List dfa_state) (hun : s.unmarked_states.Perm (T :: rest))
    (h : convert_inv nfa s) :
    convert_inv nfa
        (nfa.m_input.foldl (convert_symbol nfa T) { s with unmarked_states := rest }) ∧
      convert_measure nfa
        (nfa.m_input.foldl (convert_symbol nfa T) { s with unmarked_states := rest }) + 1 ≤
        convert_measure nfa s := by
  have hnd : (T :: rest).Nodup := hun.nodup_iff.mp h.base.unmarked_nodup
  have hT : T ∈ s.dfa_states :=
    h.base.unmarked_sub T (hun.mem_iff.mpr (List.mem_cons_self T rest))
  have hin : convert_inner nfa T nfa.m_input { s with unmarked_states := rest } := by
    refine ⟨⟨h.base.start_mem, ?_, h.base.entries, h.base.states_nodup,
      (List.nodup_cons.mp hnd).2, h.base.states_wf⟩, hT, (List.nodup_cons.mp hnd).1, ?_, ?_⟩
    · intro T1 hT1
      exact h.base.unmarked_sub T1 (hun.mem_iff.mpr (List.mem_cons_of_mem T hT1))
    · intro T1 hT1 hT1u hne c hc
      apply h.marked_done T1 hT1 _ c hc
      intro hm
      rcases List.mem_cons.mp (hun.mem_iff.mp hm) with h3 | h3
      · exact hne h3
      · exact hT1u h3
    · intro c hc hcn
      exact absurd hc hcn
  obtain ⟨h2, hl⟩ := convert_fold_inner nfa T nfa.m_input _ (fun _ hc => hc) hin
  refine ⟨⟨h2.base, ?_⟩, ?_⟩
  · intro T1 hT1 hT1u c hc
    by_cases hne : T1 = T
    · subst hne
      exact h2.T_done c hc (by simp)
    · exact h2.others_done T1 hT1 hT1u hne c hc
  · have hb := dfa_states_length_le nfa _ h2.base.states_nodup h2.base.states_wf
    have hb0 := dfa_states_length_le nfa _ h.base.states_nodup h.base.states_wf
    have hlen := hun.length_eq
    simp only [convert_measure, List.length_cons] at hl hlen ⊢
    omega

theorem set_extract_perm {α : Type} [DecidableEq α] (x : α) (l : List α) (hx : x ∈ l) :
    l.Perm (x :: set_extract x l) := by
  induction l with
  | nil => simp at hx
  | cons y ys ih =>
    simp only [set_extract]
    by_cases hy : y = x
    · rw [if_pos hy, hy]
    · rw [if_neg hy]
      have hx2 : x ∈ ys := by
        rcases List.mem_cons.mp hx with h | h
        · exact absurd h.symm hy
        · exact h
      exact ((ih hx2).cons y).trans (List.Perm.swap x y _)

theorem pick_perm (T0 : dfa_state) (rest0 : List dfa_state) (X : dfa_state) :
    (T0 :: rest0).Perm
      ((if X ∈ T0 :: rest0 then X else T0) ::
        set_extract (if X ∈ T0 :: rest0 then X else T0) (T0 :: rest0)) := by
  apply set_extract_perm
  split
  · assumption
  · exact List.mem_cons_self T0 rest0

theorem convert_loop_any_spec (nfa : finite_autometa) (pick : Nat → convert_state → dfa_state) :
    ∀ (n : Nat) (s : convert_state), convert_inv nfa s → convert_measure nfa s ≤ n →
      convert_inv nfa (convert_loop_any nfa pick n s) ∧
        (convert_loop_any nfa pick n s).unmarked_states = [] := by
  intro n
  induction n with
  | zero =>
    intro s h hm
    simp only [convert_measure] at hm
    have : s.unmarked_states.length = 0 := by omega
    exact ⟨h, List.length_eq_zero.mp this⟩
  | succ n ih =>
    intro s h hm
    simp only [convert_loop_any]
    cases hun : s.unmarked_states with
    | nil => exact ⟨h, hun⟩
    | cons T0 rest0 =>
      have hp : s.unmarked_states.Perm
          ((if pick n s ∈ T0 :: rest0 then pick n s else T0) ::
            set_extract (if pick n s ∈ T0 :: rest0 then pick n s else T0) (T0 :: rest0)) := by
        rw [hun]
        exact pick_perm T0 rest0 (pick n s)
      obtain ⟨h1, hm1⟩ := convert_step_perm nfa s _ _ hp h
      exact ih _ h1 (by omega)

theorem convert_loop_eq_any (nfa : finite_autometa) :
    ∀ (n : Nat) (s : convert_state),
      convert_loop nfa n s =
        convert_loop_any nfa (fun _ s1 => s1.unmarked_states.headD []) n s := by
  intro n
  induction n with
  | zero => intro s; rfl
  | succ n ih =>
    intro s
    simp only [convert_loop, convert_loop_any]
    cases hun : s.unmarked_states with
    | nil => rfl
    | cons T0 rest0 =>
      simp only [List.headD_cons, List.mem_cons, true_or, if_true, set_extract]
      exact ih _

theorem convert_final_eq_any (nfa : finite_autometa) :
    convert_final nfa = convert_any nfa (fun _ s1 => s1.unmarked_states.headD []) :=
  convert_loop_eq_any nfa _ _

theorem set_less_nil_right (a : List state) : set_less a [] = false := by
  cases a <;> rfl

theorem set_less_trans : ∀ a b c : List state,
    set_less a b = true → set_less b c = true → set_less a c = true
  | a, [], _, h, _ => by rw [set_less_nil_right] at h; cases h
  | _, _ :: _, [], _, h => by rw [set_less_nil_right] at h; cases h
  | [], _ :: _, _ :: _, _, _ => rfl
  | x :: xs, y :: ys, z :: zs, h1, h2 => by
    simp only [set_less] at h1 h2 ⊢
    by_cases hxy : x < y
    · by_cases hyz : y < z
      · simp [lt_trans hxy hyz]
      · by_cases hzy : z < y
        · simp [hyz, hzy] at h2
        · have hyz2 : y = z := le_antisymm (not_lt.mp hzy) (not_lt.mp hyz)
          simp [hyz2 ▸ hxy]
    · by_cases hyx : y < x
      · simp [hxy, hyx] at h1
      · have hxy2 : x = y := le_antisymm (not_lt.mp hyx) (not_lt.mp hxy)
        subst hxy2
        simp only [hxy, if_false, lt_self_iff_false] at h1
        by_cases hxz : x < z
        · simp [hxz]
        · by_cases hzx : z < x
          · simp [hxz, hzx] at h2
          · simp only [hxz, hzx, if_false] at h2 ⊢
            exact set_less_trans xs ys zs h1 h2

theorem key_less_iff (a b : List state × symbol) :
    key_less a b = true ↔ set_less a.1 b.1 = true ∨ (a.1 = b.1 ∧ a.2 < b.2) := by
  simp only [key_less, int_less, Bool.or_eq_true, Bool.and_eq_true, Bool.not_eq_true',
    decide_eq_true_eq]
  constructor
  · rintro (h | ⟨h1, h2⟩)
    · exact Or.inl h
    · cases h3 : set_less a.1 b.1 with
      | true => exact Or.inl rfl
      | false => exact Or.inr ⟨set_less_total a.1 b.1 h3 h1, h2⟩
  · rintro (h | ⟨h1, h2⟩)
    · exact Or.inl h
    · exact Or.inr ⟨by rw [h1, set_less_irrefl], h2⟩

theorem key_less_trans (a b c : List state × symbol) (h1 : key_less a b = true)
    (h2 : key_less b c = true) : key_less a c = true := by
  rw [key_less_iff] at h1 h2 ⊢
  rcases h1 with h1 | ⟨e1, l1⟩
  · rcases h2 with h2 | ⟨e2, _⟩
    · exact Or.inl (set_less_trans _ _ _ h1 h2)
    · exact Or.inl (e2 ▸ h1)
  · rcases h2 with h2 | ⟨e2, l2⟩
    · exact Or.inl (e1 ▸ h2)
    · exact Or.inr ⟨e1.trans e2, lt_trans l1 l2⟩

theorem set_insert_pairwise {α : Type} (lt : α → α → Bool)
    (htrans : ∀ a b c, lt a b = true → lt b c = true → lt a c = true)
    (htot : ∀ a b, lt a b = false → lt b a = false → a = b) (x : α) (l : List α)
    (hl : l.Pairwise (fun a b => lt a b = true)) :
    (set_insert lt x l).Pairwise (fun a b => lt a b = true) := by
  induction l with
  | nil => simp [set_insert]
  | cons y ys ih =>
    simp only [set_insert]
    have hy := List.pairwise_cons.mp hl
    cases h1 : lt x y with
    | true =>
      simp only [if_true]
      refine List.pairwise_cons.mpr ⟨?_, hl⟩
      intro b hb
      rcases List.mem_cons.mp hb with h | h
      · rw [h]; exact h1
      · exact htrans x y b h1 (hy.1 b h)
    | false =>
      cases h2 : lt y x with
      | true =>
        simp only [if_true, Bool.false_eq_true, if_false]
        refine List.pairwise_cons.mpr ⟨?_, ih hy.2⟩
        intro b hb
        rcases (mem_set_insert lt htot x b ys).mp hb with h | h
        · rw [h]; exact h2
        · exact hy.1 b h
      | false => simpa using hl

theorem map_assign_keys {κ β : Type} (lt : κ → κ → Bool)
    (htot : ∀ a b, lt a b = false → lt b a = false → a = b)
    (k : κ) (v : β) (m : List (κ × β)) (k1 : κ)
    (h : k1 ∈ (map_assign lt k v m).map Prod.fst) : k1 = k ∨ k1 ∈ m.map Prod.fst := by
  obtain ⟨e, he, rfl⟩ := List.mem_map.mp h
  rcases mem_map_assign lt htot k v m e he with h1 | h1
  · exact Or.inl (by rw [h1])
  · exact Or.inr (List.mem_map.mpr ⟨e, h1, rfl⟩)

theorem map_assign_pairwise {κ β : Type} (lt : κ → κ → Bool)
    (htrans : ∀ a b c, lt a b = true → lt b c = true → lt a c = true)
    (htot : ∀ a b, lt a b = false → lt b a = false → a = b) (k : κ) (v : β)
    (m : List (κ × β)) (hm : (m.map Prod.fst).Pairwise (fun a b => lt a b = true)) :
    ((map_assign lt k v m).map Prod.fst).Pairwise (fun a b => lt a b = true) := by
  induction m with
  | nil => simp [map_assign]
  | cons e rest ih =>
    obtain ⟨k1, v1⟩ := e
    simp only [map_assign]
    simp only [List.map_cons] at hm
    have hy := List.pairwise_cons.mp hm
    cases h1 : lt k k1 with
    | true =>
      simp only [if_true, List.map_cons]
      refine List.pairwise_cons.mpr ⟨?_, hm⟩
      intro b hb
      rcases List.mem_cons.mp hb with h | h
      · rw [h]; exact h1
      · exact htrans k k1 b h1 (hy.1 b h)
    | false =>
      cases h2 : lt k1 k with
      | true =>
        simp only [if_true, Bool.false_eq_true, if_false, List.map_cons]
        refine List.pairwise_cons.mpr ⟨?_, ih hy.2⟩
        intro b hb
        rcases map_assign_keys lt htot k v rest b hb with h | h
        · rw [h]; exact h2
        · exact hy.1 b h
      | false => simpa using hm

theorem convert_discover_sorted (u : dfa_state) (s : convert_state)
    (h : states_sorted s.dfa_states) : states_sorted (convert_discover u s).dfa_states := by
  unfold convert_discover
  split
  · exact h
  · exact set_insert_pairwise set_less set_less_trans set_less_total u _ h

theorem convert_discover_trans (u : dfa_state) (s : convert_state) :
    (convert_discover u s).dfa_trans = s.dfa_trans := by
  unfold convert_discover
  split <;> rfl

theorem convert_discover_states (u : dfa_state) (s : convert_state) (X : dfa_state)
    (hX : X ∈ (convert_discover u s).dfa_states) : X ∈ s.dfa_states ∨ X = u := by
  unfold convert_discover at hX
  split at hX
  · exact Or.inl hX
  · rcases (mem_insert_dfa_state _ _ _).mp hX with h | h
    · exact Or.inr h
    · exact Or.inl h

theorem convert_symbol_sorted (nfa : finite_autometa) (T : dfa_state) (s : convert_state)
    (c : symbol) (h : states_sorted s.dfa_states ∧ table_sorted s.dfa_trans) :
    states_sorted (convert_symbol nfa T s c).dfa_states ∧
      table_sorted (convert_symbol nfa T s c).dfa_trans := by
  simp only [convert_symbol]
  refine ⟨convert_discover_sorted _ s h.1, ?_⟩
  rw [convert_discover_trans]
  exact map_assign_pairwise key_less key_less_trans key_less_total _ _ _ h.2

theorem convert_fold_sorted (nfa : finite_autometa) (T : dfa_state) (cs : List symbol) :
    ∀ s : convert_state, states_sorted s.dfa_states ∧ table_sorted s.dfa_trans →
      states_sorted (cs.foldl (convert_symbol nfa T) s).dfa_states ∧
        table_sorted (cs.foldl (convert_symbol nfa T) s).dfa_trans := by
  induction cs with
  | nil => intro s h; exact h
  | cons c rest ih => intro s h; exact ih _ (convert_symbol_sorted nfa T s c h)

theorem convert_loop_any_sorted (nfa : finite_autometa)
    (pick : Nat → convert_state → dfa_state) :
    ∀ (n : Nat) (s : convert_state), states_sorted s.dfa_states ∧ table_sorted s.dfa_trans →
      states_sorted (convert_loop_any nfa pick n s).dfa_states ∧
        table_sorted (convert_loop_any nfa pick n s).dfa_trans := by
  intro n
  induction n with
  | zero => intro s h; exact h
  | succ n ih =>
    intro s h
    simp only [convert_loop_any]
    cases hun : s.unmarked_states with
    | nil => exact h
    | cons T0 rest0 => exact ih _ (convert_fold_sorted nfa _ _ _ h)

theorem convert_any_sorted (nfa : finite_autometa) (pick : Nat → convert_state → dfa_state) :
    states_sorted (convert_any nfa pick).dfa_states ∧
      table_sorted (convert_any nfa pick).dfa_trans :=
  convert_loop_any_sorted nfa pick _ _
    ⟨by simp [convert_init, states_sorted], by simp [convert_init, table_sorted]⟩

theorem convert_fold_generated (nfa : finite_autometa) (T : dfa_state) (cs : List symbol)
    (hT : dfa_generated nfa T) :
    ∀ s : convert_state, (∀ c ∈ cs, c ∈ nfa.m_input) →
      (∀ X ∈ s.dfa_states, dfa_generated nfa X) →
      ∀ X ∈ (cs.foldl (convert_symbol nfa T) s).dfa_states, dfa_generated nfa X := by
  induction cs with
  | nil => intro s _ h; exact h
  | cons c rest ih =>
    intro s hsub h
    apply ih _ (fun c1 hc1 => hsub c1 (List.mem_cons_of_mem c hc1))
    intro X hX
    simp only [convert_symbol] at hX
    rcases convert_discover_states _ s X hX with h1 | h1
    · exact h X h1
    · exact h1 ▸ dfa_generated.next T c hT (hsub c (List.mem_cons_self c rest))

theorem convert_loop_any_generated (nfa : finite_autometa)
    (pick : Nat → convert_state → dfa_state) :
    ∀ (n : Nat) (s : convert_state), convert_inv nfa s →
      (∀ X ∈ s.dfa_states, dfa_generated nfa X) →
      ∀ X ∈ (convert_loop_any nfa pick n s).dfa_states, dfa_generated nfa X := by
  intro n
  induction n with
  | zero => intro s _ h; exact h
  | succ n ih =>
    intro s hinv h
    simp only [convert_loop_any]
    cases hun : s.unmarked_states with
    | nil => exact h
    | cons T0 rest0 =>
      have hp : s.unmarked_states.Perm
          ((if pick n s ∈ T0 :: rest0 then pick n s else T0) ::
            set_extract (if pick n s ∈ T0 :: rest0 then pick n s else T0) (T0 :: rest0)) := by
        rw [hun]
        exact pick_perm T0 rest0 (pick n s)
      have hT : dfa_generated nfa (if pick n s ∈ T0 :: rest0 then pick n s else T0) :=
        h _ (hinv.base.unmarked_sub _ (hp.mem_iff.mpr (List.mem_cons_self _ _)))
      exact ih _ (convert_step_perm nfa s _ _ hp hinv).1
        (convert_fold_generated nfa _ _ hT _ (fun _ hc => hc) h)

theorem convert_any_spec (nfa : finite_autometa) (pick : Nat → convert_state → dfa_state) :
    convert_inv nfa (convert_any nfa pick) ∧ (convert_any nfa pick).unmarked_states = [] :=
  convert_loop_any_spec nfa pick _ _ (convert_init_inv nfa) (convert_init_measure nfa)

theorem convert_any_find (nfa : finite_autometa) (pick : Nat → convert_state → dfa_state)
    (T : dfa_state) (c : symbol) (hT : T ∈ (convert_any nfa pick).dfa_states)
    (hc : c ∈ nfa.m_input) :
    map_find (T, c) (convert_any nfa pick).dfa_trans =
      some (epsilon_closure_set (nfa.move_set T c) nfa) := by
  apply (convert_any_spec nfa pick).1.marked_done T hT _ c hc
  rw [(convert_any_spec nfa pick).2]
  simp

/-- The sets in `dfa_states` when the loop is left are the generated ones,
whatever the order in which `unmarked_states` is drained. -/
theorem mem_convert_any_states (nfa : finite_autometa)
    (pick : Nat → convert_state → dfa_state) (X : dfa_state) :
    X ∈ (convert_any nfa pick).dfa_states ↔ dfa_generated nfa X := by
  constructor
  · intro hX
    apply convert_loop_any_generated nfa pick _ _ (convert_init_inv nfa) _ X hX
    intro Y hY
    simp only [convert_init, List.mem_singleton] at hY
    exact hY ▸ dfa_generated.start
  · intro h
    induction h with
    | start => exact (convert_any_spec nfa pick).1.base.start_mem
    | next T c _ hc ih =>
      have hf := convert_any_find nfa pick T c ih hc
      exact ((convert_any_spec nfa pick).1.base.entries T c _ (map_find_mem _ _ _ hf)).2.2.2

/-- The entries of the table when the loop is left, whatever the order in
which `unmarked_states` is drained. -/
theorem mem_convert_any_trans (nfa : finite_autometa)
    (pick : Nat → convert_state → dfa_state) (e : (dfa_state × symbol) × dfa_state) :
    e ∈ (convert_any nfa pick).dfa_trans ↔
      dfa_generated nfa e.1.1 ∧ e.1.2 ∈ nfa.m_input ∧
        e.2 = epsilon_closure_set (nfa.move_set e.1.1 e.1.2) nfa := by
  obtain ⟨⟨T, c⟩, u⟩ := e
  constructor
  · intro he
    obtain ⟨h1, h2, h3, _⟩ := (convert_any_spec nfa pick).1.base.entries T c u he
    exact ⟨(mem_convert_any_states nfa pick T).mp h1, h2, h3⟩
  · rintro ⟨h1, h2, h3⟩
    have hf := convert_any_find nfa pick T c ((mem_convert_any_states nfa pick T).mpr h1) h2
    simp only at h3
    rw [h3]
    exact map_find_mem _ _ _ hf

theorem sorted_states_ext (D1 D2 : List dfa_state) (h1 : states_sorted D1)
    (h2 : states_sorted D2) (h : ∀ X, X ∈ D1 ↔ X ∈ D2) : D1 = D2 := by
  haveI : IsAntisymm dfa_state (fun a b => set_less a b = true) :=
    ⟨fun a b hab hba => by
      have := set_less_trans a b a hab hba
      rw [set_less_irrefl] at this
      cases this⟩
  have hne : ∀ a b : dfa_state, set_less a b = true → a ≠ b := by
    intro a b hab he
    rw [he, set_less_irrefl] at hab
    cases hab
  have n1 : D1.Nodup := List.Pairwise.imp (fun {a b} hab => hne a b hab) h1
  have n2 : D2.Nodup := List.Pairwise.imp (fun {a b} hab => hne a b hab) h2
  exact List.eq_of_perm_of_sorted ((List.perm_ext_iff_of_nodup n1 n2).mpr h) h1 h2

theorem sorted_table_ext (m1 m2 : dfa_table) (h1 : table_sorted m1) (h2 : table_sorted m2)
    (h : ∀ e, e ∈ m1 ↔ e ∈ m2) : m1 = m2 := by
  haveI : IsAntisymm ((dfa_state × symbol) × dfa_state)
      (fun a b => key_less a.1 b.1 = true) :=
    ⟨fun a b hab hba => by
      have := key_less_trans a.1 b.1 a.1 hab hba
      rw [key_less_irrefl] at this
      cases this⟩
  have hne : ∀ a b : (dfa_state × symbol) × dfa_state, key_less a.1 b.1 = true → a ≠ b := by
    intro a b hab he
    rw [he, key_less_irrefl] at hab
    cases hab
  have s1 : m1.Pairwise (fun a b => key_less a.1 b.1 = true) := List.pairwise_map.mp h1
  have s2 : m2.Pairwise (fun a b => key_less a.1 b.1 = true) := List.pairwise_map.mp h2
  have n1 : m1.Nodup := List.Pairwise.imp (fun {a b} hab => hne a b hab) s1
  have n2 : m2.Nodup := List.Pairwise.imp (fun {a b} hab => hne a b hab) s2
  exact List.eq_of_perm_of_sorted ((List.perm_ext_iff_of_nodup n1 n2).mpr h) s1 s2

theorem mem_move_declared (fa : finite_autometa) (hwf : well_formed fa) (q : state)
    (c : symbol) (d : state) (hd : d ∈ fa.move q c) : d ∈ fa.m_Q := by
  unfold finite_autometa.move at hd
  cases hf : map_find (q, c) fa.m_tr with
  | none => simp [hf] at hd
  | some v =>
    simp only [hf] at hd
    exact (hwf.2.2.1 _ (map_find_mem (q, c) v fa.m_tr hf)).2.1 d hd

theorem generated_sub_declared (nfa : finite_autometa) (hwf : well_formed nfa)
    (T : dfa_state) (h : dfa_generated nfa T) : ∀ x ∈ T, x ∈ nfa.m_Q := by
  cases h with
  | start =>
    intro x hx
    rw [epsilon_closure_eq_set] at hx
    rcases mem_closure_seed_or_declared _ nfa x hx with h1 | h1
    · simp only [List.mem_singleton] at h1
      exact h1 ▸ hwf.1
    · exact h1
  | next T1 c _ _ =>
    intro x hx
    rcases mem_closure_seed_or_declared _ nfa x hx with h1 | h1
    · obtain ⟨s, _, hs⟩ := (mem_move_set nfa T1 c x).mp h1
      exact mem_move_declared nfa hwf s c x hs
    · exact h1

theorem generated_sorted (nfa : finite_autometa) (T : dfa_state)
    (h : dfa_generated nfa T) : T.Sorted (· < ·) := by
  cases h with
  | start => exact (start_state_wf nfa).1
  | next T1 c _ _ => exact (closure_move_wf nfa T1 c).1

theorem sorted_subsets_length_le (U : List state) (D : List dfa_state) (hnd : D.Nodup)
    (hwf : ∀ T ∈ D, T.Sorted (· < ·) ∧ ∀ x ∈ T, x ∈ U) : D.length ≤ 2 ^ U.length := by
  have hinj : (D.map List.toFinset).Nodup := by
    apply List.Nodup.map_on _ hnd
    intro a ha b hb hab
    exact sorted_toFinset_inj a b (hwf a ha).1 (hwf b hb).1 hab
  have hsub : (D.map List.toFinset).toFinset ⊆ U.toFinset.powerset := by
    intro F hF
    simp only [List.mem_toFinset, List.mem_map] at hF
    obtain ⟨T, hT, rfl⟩ := hF
    rw [Finset.mem_powerset]
    intro x hx
    rw [List.mem_toFinset] at hx ⊢
    exact (hwf T hT).2 x hx
  have hcard := Finset.card_le_card hsub
  rw [List.toFinset_card_of_nodup hinj, List.length_map, Finset.card_powerset] at hcard
  exact le_trans hcard (Nat.pow_le_pow_right (by norm_num) (List.toFinset_card_le U))

theorem mem_final_states_iff (nfa : finite_autometa) (X : dfa_state) :
    X ∈ (convert_final nfa).dfa_states ↔ dfa_generated nfa X := by
  rw [convert_final_eq_any]
  exact mem_convert_any_states nfa _ X

theorem table_states_sub (nfa : finite_autometa) (X : dfa_state)
    (hX : X ∈ table_states (convert nfa)) : X ∈ (convert_final nfa).dfa_states := by
  simp only [table_states, List.mem_append, List.mem_map] at hX
  apply produced_mem_states
  rcases hX with ⟨e, he, rfl⟩ | ⟨e, he, rfl⟩
  · exact Or.inr (Or.inl ⟨e, he, rfl⟩)
  · exact Or.inr (Or.inr ⟨e, he, rfl⟩)

/-! ## The properties, continued -/

/-- C11 (reachable-set invariant), evaluated where it fails: in the well-formed
automaton `eps_nfa` the set `{2}` is a value of the returned table, recorded
under `({1}, a)`, but for no word `w` over the alphabet is `{2}` the set of
states reachable from the initial state by `w` and ε-transitions, because every
word that reaches 2 also reaches 3 by `2 -ε-> 3`. -/
theorem reachable_set_invariant_fails :
    well_formed eps_nfa ∧ (([1], 97), [2]) ∈ convert eps_nfa ∧
      ∀ w : List symbol, (∀ c ∈ w, c ∈ eps_nfa.m_input) →
        ¬∀ q : state, q ∈ ([2] : dfa_state) ↔ nfa_reach eps_nfa eps_nfa.m_q0 w q := by
  refine ⟨by unfold well_formed; decide, by decide, ?_⟩
  intro w _ h
  have h2 : nfa_reach eps_nfa eps_nfa.m_q0 w 2 := (h 2).mp (by decide)
  have h3 : nfa_reach eps_nfa eps_nfa.m_q0 w 3 :=
    nfa_reach_eps_last eps_nfa _ 2 3 w h2 (by decide)
  exact absurd ((h 3).mpr h3) (by decide)

/-- C12 (DFA states are non-empty) does not hold as stated: in the table that
`convert` returns for the well-formed automaton `dead_nfa`, the empty set is
the state of a key and a value. -/
theorem empty_dfa_state_occurs :
    well_formed dead_nfa ∧
      ¬(∀ e ∈ convert dead_nfa, e.1.1 ≠ [] ∧ e.2 ≠ []) ∧
      (([], 97), []) ∈ convert dead_nfa := by
  refine ⟨by unfold well_formed; decide, by decide, by decide⟩

/-- C12 (DFA states are non-empty), amended: for every automaton the start
state `s0` is non-empty; a value `u` recorded in the returned table under the
key `(T, c)` is empty exactly when `move (T, c)` is empty; when the empty set
is a value of the table it is also in the domain, with the entry `(∅, c1) -> ∅`
for every alphabet symbol `c1`; and a key whose state is empty has that state
as a value of the table. -/
theorem dfa_state_empty_iff (nfa : finite_autometa) :
    epsilon_closure nfa.m_q0 nfa ≠ [] ∧
      (∀ T c u, ((T, c), u) ∈ convert nfa → (u = [] ↔ nfa.move_set T c = [])) ∧
      (∀ T c, ((T, c), ([] : dfa_state)) ∈ convert nfa →
        ∀ c1 ∈ nfa.m_input, ((([] : dfa_state), c1), ([] : dfa_state)) ∈ convert nfa) ∧
      (∀ c u, ((([] : dfa_state), c), u) ∈ convert nfa →
        ∃ T1 c1, ((T1, c1), ([] : dfa_state)) ∈ convert nfa) := by
  have hs0 : epsilon_closure nfa.m_q0 nfa ≠ [] := by
    intro h0
    have hq := (mem_epsilon_closure nfa.m_q0 nfa nfa.m_q0).mpr Relation.ReflTransGen.refl
    rw [h0] at hq
    simp at hq
  refine ⟨hs0, fun T c u h => ?_, fun T c h c1 hc1 => ?_, fun c u h => ?_⟩
  · rw [((convert_final_inv nfa).base.entries T c u h).2.2.1]
    exact epsilon_closure_set_eq_nil nfa _
  · have hmem : ([] : dfa_state) ∈ (convert_final nfa).dfa_states :=
      ((convert_final_inv nfa).base.entries T c [] h).2.2.2
    have hf := convert_find nfa [] c1 hmem hc1
    have hm : nfa.move_set [] c1 = [] := rfl
    rw [hm, epsilon_closure_set_nil] at hf
    exact map_find_mem _ _ _ hf
  · have hmem : ([] : dfa_state) ∈ (convert_final nfa).dfa_states :=
      ((convert_final_inv nfa).base.entries [] c u h).1
    generalize hX : ([] : dfa_state) = X at hmem
    cases (mem_final_states_iff nfa X).mp hmem with
    | start => exact absurd hX.symm hs0
    | next T1 c1 hT1 hc1 =>
      refine ⟨T1, c1, ?_⟩
      exact map_find_mem _ _ _
        (convert_find nfa T1 c1 ((mem_final_states_iff nfa T1).mpr hT1) hc1)

/-- C12, amended, at `dead_nfa`, its entry `({1}, b) -> ∅` and the symbol `a`. -/
theorem dfa_state_empty_iff_witness :
    epsilon_closure dead_nfa.m_q0 dead_nfa ≠ [] ∧
      (([] : dfa_state) = [] ↔ dead_nfa.move_set [1] 98 = []) ∧
      ((([] : dfa_state), (97 : symbol)), ([] : dfa_state)) ∈ convert dead_nfa :=
  ⟨(dfa_state_empty_iff dead_nfa).1, (dfa_state_empty_iff dead_nfa).2.1 [1] 98 [] (by decide),
    (dfa_state_empty_iff dead_nfa).2.2.1 [1] 98 (by decide) 97 (by decide)⟩

/-- C13 (state-count bound): for every well-formed automaton with `n` declared
states, the number of distinct DFA states in the domain or range of the
returned table is at most `2 ^ n`. -/
theorem dfa_state_count_le (nfa : finite_autometa) (hwf : well_formed nfa) :
    (table_states (convert nfa)).toFinset.card ≤ 2 ^ nfa.m_Q.length := by
  have hsub : (table_states (convert nfa)).toFinset ⊆ (convert_final nfa).dfa_states.toFinset := by
    intro X hX
    rw [List.mem_toFinset] at hX ⊢
    exact table_states_sub nfa X hX
  refine le_trans (Finset.card_le_card hsub) (le_trans (List.toFinset_card_le _) ?_)
  apply sorted_subsets_length_le nfa.m_Q _ (convert_final_inv nfa).base.states_nodup
  intro T hT
  have hg := (mem_final_states_iff nfa T).mp hT
  exact ⟨generated_sorted nfa T hg, generated_sub_declared nfa hwf T hg⟩

/-- C13 at the automaton of `main`, which has three declared states. -/
theorem dfa_state_count_le_witness :
    (table_states (convert main_nfa)).toFinset.card ≤ 2 ^ main_nfa.m_Q.length :=
  dfa_state_count_le main_nfa (by unfold well_formed; decide)

/-- C14 (epsilon-closure terminates): for every automaton and every seed, a
set `T` or a single state `t`, the worklist loop is left with an empty stack
after at most as many iterations as the seed has members plus the number of
declared states, and a larger budget gives the same result; an iteration keeps
every member of `e_t`, pushes only declared states that were not in `e_t` and
are in it afterwards, and lowers the stack height plus the number of declared
states outside `e_t`; the result stays inside the seed and the declared
states. -/
theorem epsilon_closure_terminates (fa : finite_autometa) (T : List state) (t : state) :
    (∀ m, T.length + fa.m_Q.length ≤ m →
        (closure_loop fa m (T.foldl (fun st s => s :: st) [], T)).1 = [] ∧
          (closure_loop fa m (T.foldl (fun st s => s :: st) [], T)).2 =
            epsilon_closure_set T fa) ∧
      (∀ m, 1 + fa.m_Q.length ≤ m →
        (closure_loop fa m ([t], [t])).1 = [] ∧
          (closure_loop fa m ([t], [t])).2 = epsilon_closure t fa) ∧
      (∀ top st e x, x ∈ e → x ∈ (closure_scan fa top fa.m_Q (st, e)).2) ∧
      (∀ top st e x, x ∈ (closure_scan fa top fa.m_Q (st, e)).1 →
        x ∈ st ∨ (x ∈ fa.m_Q ∧ x ∉ e ∧ x ∈ (closure_scan fa top fa.m_Q (st, e)).2)) ∧
      (∀ top st e, closure_measure fa (closure_scan fa top fa.m_Q (st, e)) + 1 ≤
        closure_measure fa (top :: st, e)) ∧
      (∀ x ∈ epsilon_closure_set T fa, x ∈ T ∨ x ∈ fa.m_Q) ∧
      (∀ x ∈ epsilon_closure t fa, x = t ∨ x ∈ fa.m_Q) := by
  have hT := closure_set_stack_empty T fa
  have ht : (closure_loop fa (1 + fa.m_Q.length) ([t], [t])).1 = [] :=
    closure_set_stack_empty [t] fa
  refine ⟨?_, ?_, ?_, ?_, ?_, ?_, ?_⟩
  · intro m hm
    rw [closure_loop_stable fa _ _ hT m hm]
    exact ⟨hT, rfl⟩
  · intro m hm
    rw [closure_loop_stable fa _ _ ht m hm]
    exact ⟨ht, rfl⟩
  · intro top st e x hx
    exact closure_scan_grows fa top fa.m_Q st e x hx
  · intro top st e x hx
    rcases (closure_scan_mem_stack fa top fa.m_Q st e x).mp hx with h | h
    · exact Or.inl h
    · exact Or.inr ⟨h.1, h.2.2, (closure_scan_mem_set fa top fa.m_Q st e x).mpr
        (Or.inr ⟨h.1, h.2.1⟩)⟩
  · intro top st e
    have h1 := closure_scan_measure fa top fa.m_Q fa.m_Q st e (fun _ hq => hq)
    simp only [closure_measure, List.length_cons]
    omega
  · intro x hx
    exact mem_closure_seed_or_declared T fa x hx
  · intro x hx
    rw [epsilon_closure_eq_set] at hx
    simpa using mem_closure_seed_or_declared [t] fa x hx

/-- C15 (subset construction terminates without failure): for every automaton
the loop of `convert` is left, with `unmarked_states` empty, after at most
`2 ^ k` iterations, `k` being the number of states of the automaton, and a
larger budget gives the same table; whenever the guard holds the loop extracts
the first element of `unmarked_states`, which exists, and goes on. -/
theorem convert_terminates (nfa : finite_autometa) :
    (∀ m, 2 ^ (state_universe nfa).length ≤ m →
        (convert_loop nfa m (convert_init nfa)).unmarked_states = [] ∧
          (convert_loop nfa m (convert_init nfa)).dfa_trans = convert nfa) ∧
      (∀ (n : Nat) (s : convert_state), s.unmarked_states ≠ [] →
        ∃ T rest, s.unmarked_states = T :: rest ∧
          convert_loop nfa (n + 1) s =
            convert_loop nfa n
              (nfa.m_input.foldl (convert_symbol nfa T) { s with unmarked_states := rest })) := by
  constructor
  · intro m hm
    have h := convert_loop_stable nfa _ _ (convert_final_unmarked nfa) m hm
    rw [h]
    exact ⟨convert_final_unmarked nfa, rfl⟩
  · intro n s hs
    cases hun : s.unmarked_states with
    | nil => exact absurd hun hs
    | cons T rest => exact ⟨T, rest, rfl, by simp only [convert_loop, hun]⟩

/-- C16 (order independence): for every automaton and every order `pick` in
which `unmarked_states` is drained, the variant of `convert` terminates and
its table equals the table of `convert`, which extracts the smallest set
first; the sets of DFA states are equal too. -/
theorem convert_order_independent (nfa : finite_autometa)
    (pick : Nat → convert_state → dfa_state) :
    (convert_any nfa pick).unmarked_states = [] ∧
      (convert_any nfa pick).dfa_trans = convert nfa ∧
      (convert_any nfa pick).dfa_states = (convert_final nfa).dfa_states := by
  refine ⟨(convert_any_spec nfa pick).2, ?_, ?_⟩
  · unfold convert
    rw [convert_final_eq_any]
    apply sorted_table_ext _ _ (convert_any_sorted nfa pick).2 (convert_any_sorted nfa _).2
    intro e
    rw [mem_convert_any_trans, mem_convert_any_trans]
  · rw [convert_final_eq_any]
    apply sorted_states_ext _ _ (convert_any_sorted nfa pick).1 (convert_any_sorted nfa _).1
    intro X
    rw [mem_convert_any_states, mem_convert_any_states]

/-- C17 (malformed automata are rejected) does not hold as stated: `bad_nfa`
has an undeclared initial state, an undeclared accepting state and a transition
on a symbol outside the alphabet, and `convert` returns a table for it. -/
theorem malformed_not_rejected :
    bad_nfa.valid ∧ bad_nfa.m_q0 ∉ bad_nfa.m_Q ∧ (∃ q ∈ bad_nfa.m_F, q ∉ bad_nfa.m_Q) ∧
      (∃ e ∈ bad_nfa.m_tr, e.1.2 ∉ bad_nfa.m_input ∧ e.1.2 ≠ epsilon) ∧
      ¬well_formed bad_nfa ∧
      (finite_autometa.construct [1, 2] [97] [7] 5 [((5, 98), [1])]) = bad_nfa ∧
      convert bad_nfa = [(([], 97), []), (([5], 97), [])] := by
  refine ⟨by unfold finite_autometa.valid; decide, by decide, by decide, by decide,
    by unfold well_formed; decide, by decide, by decide⟩

/-- C17 (malformed automata), amended: an automaton that is not well-formed is
not rejected; `convert` leaves its loop and returns a table that, for `s0` and
every symbol `c` of the alphabet, holds `epsilon_closure (move (s0, c))`. -/
theorem malformed_converted (nfa : finite_autometa) (_h : ¬well_formed nfa) :
    (convert_final nfa).unmarked_states = [] ∧
      ∀ c ∈ nfa.m_input,
        map_find (epsilon_closure nfa.m_q0 nfa, c) (convert nfa) =
          some (epsilon_closure_set (nfa.move_set (epsilon_closure nfa.m_q0 nfa) c) nfa) :=
  ⟨convert_final_unmarked nfa, fun c hc =>
    convert_find nfa _ c (convert_final_inv nfa).base.start_mem hc⟩

/-- C17, amended, at `bad_nfa`. -/
theorem malformed_converted_witness :
    (convert_final bad_nfa).unmarked_states = [] ∧
      ∀ c ∈ bad_nfa.m_input,
        map_find (epsilon_closure bad_nfa.m_q0 bad_nfa, c) (convert bad_nfa) =
          some (epsilon_closure_set
            (bad_nfa.move_set (epsilon_closure bad_nfa.m_q0 bad_nfa) c) bad_nfa) :=
  malformed_converted bad_nfa (by unfold well_formed; decide)

/-- C20 (recorded transitions are closure-of-move): for every automaton and
every entry `(T, c) -> u` of the table returned by `convert`, `c` is a symbol of
the declared alphabet and `u` is `epsilon_closure (move (T, c))`. -/
theorem convert_entry_is_closure_of_move (nfa : finite_autometa) (T : dfa_state)
    (c : symbol) (u : dfa_state) (h : ((T, c), u) ∈ convert nfa) :
    c ∈ nfa.m_input ∧ u = epsilon_closure_set (nfa.move_set T c) nfa :=
  ⟨((convert_final_inv nfa).base.entries T c u h).2.1,
    ((convert_final_inv nfa).base.entries T c u h).2.2.1⟩

/-- C20 at the automaton of `main` and its entry `({1,2}, b) -> {2,3}`. -/
theorem convert_entry_is_closure_of_move_witness :
    (98 : symbol) ∈ main_nfa.m_input ∧
      ([2, 3] : dfa_state) = epsilon_closure_set (main_nfa.move_set [1, 2] 98) main_nfa :=
  convert_entry_is_closure_of_move main_nfa [1, 2] 98 [2, 3] (by decide)

/-! ## The constructor and the comparison of `BitPattern` -/

theorem pattern_char_cons (c : Char) (cs : List Char) (j : Nat) :
    pattern_char (c :: cs) j = if j = cs.length then some c else pattern_char cs j := by
  unfold pattern_char
  simp only [List.length_cons]
  by_cases h1 : j = cs.length
  · subst h1
    simp
  · by_cases h2 : j < cs.length
    · have h3 : cs.length + 1 - 1 - j = (cs.length - 1 - j) + 1 := by omega
      simp only [h1, h2, if_true, if_false, h3, List.getElem?_cons_succ,
        show j < cs.length + 1 by omega]
    · simp only [h1, h2, if_false, show ¬j < cs.length + 1 by omega]

theorem pattern_char_none (cs : List Char) (j : Nat) (h : cs.length ≤ j) :
    pattern_char cs j = none := by
  unfold pattern_char
  rw [if_neg (by omega)]

theorem pattern_char_index (cs : List Char) (i : Nat) (hi : i < cs.length) :
    pattern_char cs (cs.length - 1 - i) = cs[i]? := by
  unfold pattern_char
  rw [if_pos (by omega)]
  congr 1
  omega

theorem testBit_uint64_not (k j : Nat) :
    (uint64_not (2 ^ k)).testBit j = (decide (j < 64) ^^ decide (k = j)) := by
  simp only [uint64_not, Nat.testBit_xor, Nat.testBit_two_pow_sub_one, Nat.testBit_two_pow]

theorem two_pow_shiftRight_one (k : Nat) (hk : 1 ≤ k) : 2 ^ k >>> 1 = 2 ^ (k - 1) := by
  rw [Nat.shiftRight_eq_div_pow, Nat.pow_one]
  obtain ⟨m, rfl⟩ : ∃ m, k = m + 1 := ⟨k - 1, by omega⟩
  rw [Nat.pow_succ, Nat.add_sub_cancel]
  exact Nat.mul_div_cancel _ (by norm_num)

theorem scan_cur_bit_next (c : Char) (cs : List Char) (cur : Nat)
    (hcur : c :: cs ≠ [] → cur = 2 ^ ((c :: cs).length - 1)) :
    cur = 2 ^ cs.length ∧ (cs ≠ [] → cur >>> 1 = 2 ^ (cs.length - 1)) := by
  have h1 : cur = 2 ^ cs.length := by
    simpa using hcur (List.cons_ne_nil c cs)
  refine ⟨h1, fun hne => ?_⟩
  rw [h1]
  apply two_pow_shiftRight_one
  cases cs with
  | nil => exact absurd rfl hne
  | cons _ _ => simp

/-- The result of the loop of the constructor on a pattern over `0`, `1`, `x`
and `X`, bit by bit. -/
theorem BitPattern_scan_bits : ∀ (cs : List Char) (pat : BitPattern) (cur : Nat),
    (∀ c ∈ cs, c = '0' ∨ c = '1' ∨ c = 'x' ∨ c = 'X') →
    (cs ≠ [] → cur = 2 ^ (cs.length - 1)) →
    (∀ j, pat.mask.testBit j = true → j < 64) →
    ∃ res, BitPattern.scan (c_string cs) pat cur = .ok res ∧
      (∀ j, res.expected.testBit j =
        (pat.expected.testBit j || decide (pattern_char cs j = some '1'))) ∧
      (∀ j, res.mask.testBit j =
        (pat.mask.testBit j &&
          !decide (pattern_char cs j = some 'x' ∨ pattern_char cs j = some 'X'))) := by
  intro cs
  induction cs with
  | nil =>
    intro pat cur _ _ _
    exact ⟨pat, rfl, fun j => by simp [pattern_char], fun j => by simp [pattern_char]⟩
  | cons c cs ih =>
    intro pat cur hc hcur hmask
    obtain ⟨hcur1, hcur2⟩ := scan_cur_bit_next c cs cur hcur
    have hcs : ∀ c1 ∈ cs, c1 = '0' ∨ c1 = '1' ∨ c1 = 'x' ∨ c1 = 'X' :=
      fun c1 h1 => hc c1 (List.mem_cons_of_mem c h1)
    have hnone : pattern_char cs cs.length = none := pattern_char_none cs _ (le_refl _)
    simp only [c_string, List.cons_append, BitPattern.scan]
    rcases hc c (List.mem_cons_self c cs) with rfl | rfl | rfl | rfl
    · rw [if_neg (by decide), if_neg (by decide), if_pos rfl]
      obtain ⟨res, h1, h2, h3⟩ := ih pat (cur >>> 1) hcs hcur2 hmask
      refine ⟨res, h1, fun j => ?_, fun j => ?_⟩
      · rw [h2, pattern_char_cons]
        by_cases hj : j = cs.length
        · subst hj
          simp [hnone]
        · simp [hj]
      · rw [h3, pattern_char_cons]
        by_cases hj : j = cs.length
        · subst hj
          simp [hnone]
        · simp [hj]
    · rw [if_neg (by decide), if_pos rfl]
      obtain ⟨res, h1, h2, h3⟩ :=
        ih { pat with expected := pat.expected ||| cur } (cur >>> 1) hcs hcur2 hmask
      refine ⟨res, h1, fun j => ?_, fun j => ?_⟩
      · rw [h2, pattern_char_cons, hcur1]
        simp only [Nat.testBit_or, Nat.testBit_two_pow]
        by_cases hj : j = cs.length
        · subst hj
          simp [hnone]
        · simp [hj, Ne.symm hj]
      · rw [h3, pattern_char_cons]
        by_cases hj : j = cs.length
        · subst hj
          simp [hnone]
        · simp [hj]
    · rw [if_neg (by decide), if_neg (by decide), if_neg (by decide), if_pos (Or.inl rfl)]
      have hmask1 : ∀ j, (pat.mask &&& uint64_not cur).testBit j = true → j < 64 := by
        intro j hj
        rw [Nat.testBit_and] at hj
        exact hmask j (by simpa using (Bool.and_eq_true _ _ ▸ hj).1)
      obtain ⟨res, h1, h2, h3⟩ :=
        ih { pat with mask := pat.mask &&& uint64_not cur } (cur >>> 1) hcs hcur2 hmask1
      refine ⟨res, h1, fun j => ?_, fun j => ?_⟩
      · rw [h2, pattern_char_cons]
        by_cases hj : j = cs.length
        · subst hj
          simp [hnone]
        · simp [hj]
      · rw [h3, pattern_char_cons, hcur1]
        simp only [Nat.testBit_and, testBit_uint64_not]
        by_cases hj : j = cs.length
        · subst hj
          simpa [hnone] using hmask cs.length
        · cases hm : pat.mask.testBit j with
          | false => simp
          | true =>
            have := hmask j hm
            simp [hj, Ne.symm hj, this]
    · rw [if_neg (by decide), if_neg (by decide), if_neg (by decide), if_pos (Or.inr rfl)]
      have hmask1 : ∀ j, (pat.mask &&& uint64_not cur).testBit j = true → j < 64 := by
        intro j hj
        rw [Nat.testBit_and] at hj
        exact hmask j (by simpa using (Bool.and_eq_true _ _ ▸ hj).1)
      obtain ⟨res, h1, h2, h3⟩ :=
        ih { pat with mask := pat.mask &&& uint64_not cur } (cur >>> 1) hcs hcur2 hmask1
      refine ⟨res, h1, fun j => ?_, fun j => ?_⟩
      · rw [h2, pattern_char_cons]
        by_cases hj : j = cs.length
        · subst hj
          simp [hnone]
        · simp [hj]
      · rw [h3, pattern_char_cons, hcur1]
        simp only [Nat.testBit_and, testBit_uint64_not]
        by_cases hj : j = cs.length
        · subst hj
          simpa [hnone] using hmask cs.length
        · cases hm : pat.mask.testBit j with
          | false => simp
          | true =>
            have := hmask j hm
            simp [hj, Ne.symm hj, this]

/-- The members of the `BitPattern` built from a pattern of 1 to 31 characters
over `0`, `1`, `x` and `X`, bit by bit. -/
theorem BitPattern_construct_bits (p : List Char) (hn1 : 1 ≤ p.length)
    (hn : p.length ≤ 31) (hp : ∀ c ∈ p, c = '0' ∨ c = '1' ∨ c = 'x' ∨ c = 'X') :
    ∃ pat, BitPattern.construct (c_string p) = .ok pat ∧
      (∀ j, pat.expected.testBit j = decide (pattern_char p j = some '1')) ∧
      (∀ j, pat.mask.testBit j =
        (decide (j < 64) &&
          !decide (pattern_char p j = some 'x' ∨ pattern_char p j = some 'X'))) := by
  have hlen : (c_string p).length = p.length + 1 := by simp [c_string]
  have hinit : initial_cur_bit (p.length + 1) = some (2 ^ (p.length - 1)) := by
    unfold initial_cur_bit
    rw [if_neg (by omega), if_pos (by omega)]
    congr 2
  have hones : (0xFFFFFFFFFFFFFFFF : Nat) = 2 ^ 64 - 1 := by norm_num
  obtain ⟨res, h1, h2, h3⟩ := BitPattern_scan_bits p
    { expected := 0, mask := 0xFFFFFFFFFFFFFFFF } (2 ^ (p.length - 1)) hp (fun _ => rfl)
    (fun j hj => by
      simp only [hones, Nat.testBit_two_pow_sub_one, decide_eq_true_eq] at hj
      exact hj)
  refine ⟨res, ?_, fun j => ?_, fun j => ?_⟩
  · unfold BitPattern.construct
    rw [hlen, hinit]
    exact h1
  · rw [h2]
    simp
  · rw [h3]
    simp only [hones, Nat.testBit_two_pow_sub_one]

/-- C19 (BitPattern matching): for every pattern `p` of 1 to 31 characters
over `0`, `1`, `x` and `X` the constructor succeeds, and an unsigned value `v`
below `2 ^ 64` compares equal to the pattern exactly when, for every index `i`,
bit `n - 1 - i` of `v` is 1 where `p[i]` is `1` and 0 where `p[i]` is `0`, and
every bit of `v` at position `n` or above is 0, `n` being the length of `p`. -/
theorem BitPattern_eq_iff (p : List Char) (v : Nat) (hn1 : 1 ≤ p.length)
    (hn : p.length ≤ 31) (hp : ∀ c ∈ p, c = '0' ∨ c = '1' ∨ c = 'x' ∨ c = 'X')
    (hv : v < 2 ^ 64) :
    ∃ pat, BitPattern.construct (c_string p) = .ok pat ∧
      (BitPattern.eq_value v pat = true ↔
        (∀ i, (p[i]? = some '1' → v.testBit (p.length - 1 - i) = true) ∧
          (p[i]? = some '0' → v.testBit (p.length - 1 - i) = false)) ∧
        ∀ j, p.length ≤ j → v.testBit j = false) := by
  obtain ⟨pat, hc, he, hm⟩ := BitPattern_construct_bits p hn1 hn hp
  refine ⟨pat, hc, ?_⟩
  have hbits : BitPattern.eq_value v pat = true ↔
      ∀ j, (v.testBit j && pat.mask.testBit j) = pat.expected.testBit j := by
    simp only [BitPattern.eq_value, decide_eq_true_eq]
    constructor
    · intro h j
      rw [← h, Nat.testBit_and]
    · intro h
      apply Nat.eq_of_testBit_eq
      intro j
      rw [Nat.testBit_and]
      exact h j
  rw [hbits]
  constructor
  · intro h
    refine ⟨fun i => ⟨fun hi => ?_, fun hi => ?_⟩, fun j hj => ?_⟩
    · have hlt : i < p.length := (List.getElem?_eq_some_iff.mp hi).1
      have hpc := pattern_char_index p i hlt
      have hj := h (p.length - 1 - i)
      rw [he, hpc, hi] at hj
      simp only [decide_True, Bool.and_eq_true] at hj
      exact hj.1
    · have hlt : i < p.length := (List.getElem?_eq_some_iff.mp hi).1
      have hpc := pattern_char_index p i hlt
      have hj := h (p.length - 1 - i)
      rw [he, hm, hpc, hi] at hj
      have h64 : p.length - 1 - i < 64 := by omega
      simpa [h64] using hj
    · have hj2 := h j
      rw [he, hm, pattern_char_none p j hj] at hj2
      by_cases h64 : j < 64
      · simpa [h64] using hj2
      · exact Nat.testBit_lt_two_pow
          (lt_of_lt_of_le hv (Nat.pow_le_pow_right (by norm_num) (by omega)))
  · rintro ⟨h1, h2⟩ j
    rw [he, hm]
    by_cases hj : p.length ≤ j
    · rw [h2 j hj, pattern_char_none p j hj]
      simp
    · have hlt : p.length - 1 - j < p.length := by omega
      have hpc := pattern_char_index p (p.length - 1 - j) hlt
      have hjj : p.length - 1 - (p.length - 1 - j) = j := by omega
      rw [hjj] at hpc
      have h64 : j < 64 := by omega
      obtain ⟨c, hcv⟩ : ∃ c, p[p.length - 1 - j]? = some c :=
        ⟨p[p.length - 1 - j], List.getElem?_eq_getElem hlt⟩
      have h1j := h1 (p.length - 1 - j)
      rw [hjj] at h1j
      rw [hpc, hcv]
      rcases hp c (List.getElem?_mem hcv) with rfl | rfl | rfl | rfl
      · rw [h1j.2 hcv]
        simp
      · rw [h1j.1 hcv]
        simp [h64]
      · simp
      · simp

/-- C19 at the pattern and the value of the `static_assert` in `main`:
`0b1101010 == BitPattern ("11XXX10")`. -/
theorem BitPattern_eq_iff_witness :
    (BitPattern.construct (c_string ['1', '1', 'X', 'X', 'X', '1', '0']) =
        .ok { expected := 0b1100010, mask := 0xFFFFFFFFFFFFFFE3 } ∧
      BitPattern.eq_value 0b1101010 { expected := 0b1100010, mask := 0xFFFFFFFFFFFFFFE3 } =
        true) ∧
    ∃ pat, BitPattern.construct (c_string ['1', '1', 'X', 'X', 'X', '1', '0']) = .ok pat ∧
      (BitPattern.eq_value 0b1101010 pat = true ↔
        (∀ i, ((['1', '1', 'X', 'X', 'X', '1', '0'] : List Char)[i]? = some '1' →
              Nat.testBit 0b1101010 (7 - 1 - i) = true) ∧
          ((['1', '1', 'X', 'X', 'X', '1', '0'] : List Char)[i]? = some '0' →
              Nat.testBit 0b1101010 (7 - 1 - i) = false)) ∧
        ∀ j, 7 ≤ j → Nat.testBit 0b1101010 j = false) :=
  ⟨⟨rfl, by decide⟩,
    BitPattern_eq_iff ['1', '1', 'X', 'X', 'X', '1', '0'] 0b1101010 (by decide) (by decide)
      (by decide) (by decide)⟩

/-! ## Chains of ε-transitions -/

theorem eps_pred_eq_swap (fa : finite_autometa) :
    eps_pred fa = Function.swap (eps_step fa) := rfl

theorem closure_iff_steps (fa : finite_autometa) (t x : state) :
    x ∈ epsilon_closure t fa ↔ Relation.ReflTransGen (eps_step fa) x t := by
  rw [mem_epsilon_closure, eps_pred_eq_swap, Relation.reflTransGen_swap]

theorem steps_iff_chain (fa : finite_autometa) (t x : state) :
    Relation.ReflTransGen (eps_step fa) x t ↔
      x = t ∨ (x ∈ fa.m_Q ∧ ∃ l, List.Chain (eps_step fa) x l ∧ l.getLast? = some t) := by
  constructor
  · intro h
    obtain ⟨l, hl, hlast⟩ := List.exists_chain_of_relationReflTransGen h
    cases l with
    | nil => exact Or.inl (by simpa using hlast)
    | cons y ys =>
      right
      refine ⟨((List.chain_cons.mp hl).1).1, y :: ys, hl, ?_⟩
      rw [List.getLast_cons (List.cons_ne_nil y ys)] at hlast
      rw [List.getLast?_eq_getLast _ (List.cons_ne_nil y ys), hlast]
  · rintro (h | ⟨_, l, hl, hlast⟩)
    · rw [h]
    · apply List.relationReflTransGen_of_exists_chain l hl
      cases l with
      | nil => simp at hlast
      | cons y ys =>
        rw [List.getLast_cons (List.cons_ne_nil y ys)]
        rw [List.getLast?_eq_getLast _ (List.cons_ne_nil y ys)] at hlast
        exact Option.some.inj hlast

/-! ## Running the returned table -/

theorem mem_move_declared_of (fa : finite_autometa)
    (hd : ∀ e ∈ fa.m_tr, ∀ d ∈ e.2, d ∈ fa.m_Q) (q : state) (c : symbol) (d : state)
    (h : d ∈ fa.move q c) : d ∈ fa.m_Q := by
  unfold finite_autometa.move at h
  cases hf : map_find (q, c) fa.m_tr with
  | none => simp [hf] at h
  | some v =>
    simp only [hf] at h
    exact hd _ (map_find_mem (q, c) v fa.m_tr hf) d h

theorem generated_sub_declared_of (nfa : finite_autometa) (h0 : nfa.m_q0 ∈ nfa.m_Q)
    (hd : ∀ e ∈ nfa.m_tr, ∀ d ∈ e.2, d ∈ nfa.m_Q) (T : dfa_state)
    (h : dfa_generated nfa T) : ∀ x ∈ T, x ∈ nfa.m_Q := by
  cases h with
  | start =>
    intro x hx
    rw [epsilon_closure_eq_set] at hx
    rcases mem_closure_seed_or_declared _ nfa x hx with h1 | h1
    · simp only [List.mem_singleton] at h1
      exact h1 ▸ h0
    · exact h1
  | next T1 c _ _ =>
    intro x hx
    rcases mem_closure_seed_or_declared _ nfa x hx with h1 | h1
    · obtain ⟨s, _, hs⟩ := (mem_move_set nfa T1 c x).mp h1
      exact mem_move_declared_of nfa hd s c x hs
    · exact h1

theorem table_run_eq (nfa : finite_autometa) :
    ∀ (w : List symbol) (T : dfa_state), T ∈ (convert_final nfa).dfa_states →
      (∀ c ∈ w, c ∈ nfa.m_input) →
      table_run (convert nfa) T w = some (subset_run nfa T w) ∧
        subset_run nfa T w ∈ (convert_final nfa).dfa_states := by
  intro w
  induction w with
  | nil => intro T hT _; exact ⟨rfl, hT⟩
  | cons c w ih =>
    intro T hT hw
    have hc : c ∈ nfa.m_input := hw c (List.mem_cons_self c w)
    have hf := convert_find nfa T c hT hc
    have hnext : epsilon_closure_set (nfa.move_set T c) nfa ∈ (convert_final nfa).dfa_states :=
      ((convert_final_inv nfa).base.entries T c _ (map_find_mem _ _ _ hf)).2.2.2
    have h := ih _ hnext (fun c1 h1 => hw c1 (List.mem_cons_of_mem c h1))
    simp only [table_run, hf, subset_run, List.foldl_cons]
    exact h

theorem back_nfa_stays (q p : state) (w : List symbol) (h : nfa_reach back_nfa q w p) :
    q = 1 → p = 1 := by
  induction h with
  | done q => exact id
  | eps q r p w h1 _ _ =>
    intro hq
    subst hq
    simp [finite_autometa.move, back_nfa, map_find, epsilon] at h1
  | step q r p c w h1 _ _ =>
    intro hq
    subst hq
    simp [finite_autometa.move, back_nfa, map_find] at h1

/-! ## Automata without ε-transitions -/

theorem eps_free_move (fa : finite_autometa) (heps : ∀ e ∈ fa.m_tr, e.1.2 ≠ epsilon)
    (q : state) : fa.move q epsilon = [] := by
  unfold finite_autometa.move
  rw [map_find_none (q, epsilon) fa.m_tr (fun v hv => heps _ hv rfl)]

theorem eps_free_closure (fa : finite_autometa) (heps : ∀ e ∈ fa.m_tr, e.1.2 ≠ epsilon)
    (S : List state) : epsilon_closure_set S fa = S := by
  apply epsilon_closure_set_fixed
  intro x _ q hq
  have h := hq.2
  rw [eps_free_move fa heps q] at h
  simp at h

theorem eps_free_reach_nil (fa : finite_autometa) (heps : ∀ e ∈ fa.m_tr, e.1.2 ≠ epsilon)
    (q p : state) : nfa_reach fa q [] p ↔ q = p := by
  constructor
  · intro h
    cases h with
    | done => rfl
    | eps _ r _ _ h1 _ =>
      rw [eps_free_move fa heps q] at h1
      simp at h1
  · intro h
    rw [h]
    exact nfa_reach.done p

theorem eps_free_reach_cons (fa : finite_autometa) (heps : ∀ e ∈ fa.m_tr, e.1.2 ≠ epsilon)
    (q p : state) (c : symbol) (w : List symbol) :
    nfa_reach fa q (c :: w) p ↔ ∃ r ∈ fa.move q c, nfa_reach fa r w p := by
  constructor
  · intro h
    cases h with
    | eps _ r _ _ h1 _ =>
      rw [eps_free_move fa heps q] at h1
      simp at h1
    | step _ r _ _ _ h1 h2 => exact ⟨r, h1, h2⟩
  · rintro ⟨r, h1, h2⟩
    exact nfa_reach.step q r p c w h1 h2

theorem eps_free_subset_run (fa : finite_autometa) (heps : ∀ e ∈ fa.m_tr, e.1.2 ≠ epsilon) :
    ∀ (w : List symbol) (S : List state) (p : state),
      p ∈ subset_run fa S w ↔ ∃ q ∈ S, nfa_reach fa q w p := by
  intro w
  induction w with
  | nil =>
    intro S p
    simp only [subset_run, List.foldl_nil, eps_free_reach_nil fa heps]
    simp
  | cons c w ih =>
    intro S p
    have hstep : subset_run fa S (c :: w) = subset_run fa (fa.move_set S c) w := by
      simp only [subset_run, List.foldl_cons, eps_free_closure fa heps]
    rw [hstep, ih]
    constructor
    · rintro ⟨r, hr, hreach⟩
      obtain ⟨q, hq, hqr⟩ := (mem_move_set fa S c r).mp hr
      exact ⟨q, hq, (eps_free_reach_cons fa heps q p c w).mpr ⟨r, hqr, hreach⟩⟩
    · rintro ⟨q, hq, hreach⟩
      obtain ⟨r, hqr, hr⟩ := (eps_free_reach_cons fa heps q p c w).mp hreach
      exact ⟨r, (mem_move_set fa S c r).mpr ⟨q, hq, hqr⟩, hr⟩

theorem eps_free_start (fa : finite_autometa) (heps : ∀ e ∈ fa.m_tr, e.1.2 ≠ epsilon) :
    epsilon_closure fa.m_q0 fa = [fa.m_q0] := by
  rw [epsilon_closure_eq_set, eps_free_closure fa heps]

theorem eps_free_accepts (nfa : finite_autometa) (heps : ∀ e ∈ nfa.m_tr, e.1.2 ≠ epsilon)
    (w : List symbol) (hw : ∀ c ∈ w, c ∈ nfa.m_input) :
    nfa_accepts nfa w ↔ dfa_accepts nfa w = true := by
  have hrun := (table_run_eq nfa w _ (convert_final_inv nfa).base.start_mem hw).1
  unfold dfa_accepts nfa_accepts
  rw [hrun]
  simp only [List.any_eq_true, decide_eq_true_eq]
  rw [eps_free_start nfa heps]
  constructor
  · rintro ⟨p, hp, hreach⟩
    exact ⟨p, (eps_free_subset_run nfa heps w _ p).mpr ⟨nfa.m_q0, by simp, hreach⟩, hp⟩
  · rintro ⟨p, hrun2, hp⟩
    obtain ⟨q, hq, hreach⟩ := (eps_free_subset_run nfa heps w _ p).mp hrun2
    simp only [List.mem_singleton] at hq
    exact ⟨p, hp, hq ▸ hreach⟩

/-! ## Rejected patterns -/

theorem BitPattern_scan_result : ∀ (input : List Char) (pat : BitPattern) (cur : Nat),
    (BitPattern.scan input pat cur = .error .logic_error ↔
        ∃ c ∈ chars_before_nul input, ¬known_char c) ∧
      ((∃ res, BitPattern.scan input pat cur = .ok res) ↔
        ∀ c ∈ chars_before_nul input, known_char c) := by
  intro input
  induction input with
  | nil =>
    intro pat cur
    simp [BitPattern.scan, chars_before_nul]
  | cons val rest ih =>
    intro pat cur
    by_cases h0 : val = Char.ofNat 0
    · simp [BitPattern.scan, chars_before_nul, h0]
    · have htw : chars_before_nul (val :: rest) = val :: chars_before_nul rest := by
        simp [chars_before_nul, List.takeWhile_cons, h0]
      rw [htw]
      simp only [BitPattern.scan, if_neg h0, List.mem_cons, exists_eq_or_imp, forall_eq_or_imp]
      by_cases h1 : val = '1'
      · have hk : known_char val := Or.inr (Or.inl h1)
        rw [if_pos h1]
        simpa [hk] using ih _ _
      · rw [if_neg h1]
        by_cases h2 : val = '0'
        · have hk : known_char val := Or.inl h2
          rw [if_pos h2]
          simpa [hk] using ih _ _
        · rw [if_neg h2]
          by_cases h3 : val = 'x' ∨ val = 'X'
          · have hk : known_char val := Or.inr (Or.inr h3)
            rw [if_pos h3]
            simpa [hk] using ih _ _
          · have hk : ¬known_char val := by
              rintro (h | h | h)
              · exact h2 h
              · exact h1 h
              · exact h3 h
            rw [if_neg h3]
            simp [hk]

theorem initial_cur_bit_some (n : Nat) (hn1 : 1 ≤ n) (hn : n ≤ 31) :
    initial_cur_bit (n + 1) = some (2 ^ (n - 1)) := by
  unfold initial_cur_bit
  rw [if_neg (by omega), if_pos (by omega)]
  congr 2

/-! ## The properties, concluded -/

/-- C21 (the worklist scan collects ε-predecessors): for every automaton and
every state `t`, the members of `epsilon_closure (t)` are `t` and exactly the
declared states `q` from which a chain `q = q0, q1, ..., qk = t` with `k ≥ 1`
leads to `t`, every `q(i+1)` being in `move (q(i), ε)` and every `q(i)` with
`i < k` being declared. -/
theorem epsilon_closure_collects_predecessors (fa : finite_autometa) (t x : state) :
    x ∈ epsilon_closure t fa ↔
      x = t ∨ (x ∈ fa.m_Q ∧ ∃ l, List.Chain (eps_step fa) x l ∧ l.getLast? = some t) := by
  rw [closure_iff_steps, steps_iff_chain]

/-- C23 (DFA states are subsets of the NFA state set): for every automaton
whose initial state and whose transition destinations are declared states,
every set in the domain or range of the table returned by `convert`, and `s0`,
is a subset of the declared state set. -/
theorem dfa_states_sub_declared (nfa : finite_autometa) (h0 : nfa.m_q0 ∈ nfa.m_Q)
    (hd : ∀ e ∈ nfa.m_tr, ∀ d ∈ e.2, d ∈ nfa.m_Q) :
    (∀ T ∈ table_states (convert nfa), ∀ x ∈ T, x ∈ nfa.m_Q) ∧
      ∀ x ∈ epsilon_closure nfa.m_q0 nfa, x ∈ nfa.m_Q :=
  ⟨fun T hT => generated_sub_declared_of nfa h0 hd T
      ((mem_final_states_iff nfa T).mp (table_states_sub nfa T hT)),
    generated_sub_declared_of nfa h0 hd _ dfa_generated.start⟩

/-- C23 at the automaton of `main`. -/
theorem dfa_states_sub_declared_witness :
    (∀ T ∈ table_states (convert main_nfa), ∀ x ∈ T, x ∈ main_nfa.m_Q) ∧
      ∀ x ∈ epsilon_closure main_nfa.m_q0 main_nfa, x ∈ main_nfa.m_Q :=
  dfa_states_sub_declared main_nfa (by decide) (by decide)

/-- C24 (unreachable NFA states never appear), evaluated where it fails: in the
well-formed automaton `back_nfa` the declared state 2 cannot be reached from
the initial state 1 by any word, yet it is a member of `s0` and of the state of
a key of the returned table, because it has an ε-transition into state 1. -/
theorem unreachable_state_in_start :
    back_nfa.valid ∧ well_formed back_nfa ∧ (2 : state) ∈ back_nfa.m_Q ∧
      (∀ w : List symbol, ¬nfa_reach back_nfa back_nfa.m_q0 w 2) ∧
      (2 : state) ∈ epsilon_closure back_nfa.m_q0 back_nfa ∧
      (([1, 2], 97), []) ∈ convert back_nfa := by
  refine ⟨by unfold finite_autometa.valid; decide, by unfold well_formed; decide, by decide,
    ?_, by decide, by decide⟩
  intro w h
  exact absurd (back_nfa_stays _ _ w h rfl) (by decide)

/-- C25 (language equivalence for ε-free automata): for every automaton whose
transition relation has no key with the symbol ε, `epsilon_closure (S)` is `S`
for every set `S`, `s0` is the set of the initial state alone, and for every
word `w` over the alphabet the NFA accepts `w` exactly when the run of the
table returned by `convert` from `s0` over `w` ends in a set that meets the
accepting states. -/
theorem eps_free_language_equivalence (nfa : finite_autometa)
    (heps : ∀ e ∈ nfa.m_tr, e.1.2 ≠ epsilon) (S : List state) (w : List symbol)
    (hw : ∀ c ∈ w, c ∈ nfa.m_input) :
    epsilon_closure_set S nfa = S ∧ epsilon_closure nfa.m_q0 nfa = [nfa.m_q0] ∧
      (nfa_accepts nfa w ↔ dfa_accepts nfa w = true) :=
  ⟨eps_free_closure nfa heps S, eps_free_start nfa heps, eps_free_accepts nfa heps w hw⟩

/-- C25 at the automaton of `main`, the set `{1, 2}` and the word `bb`. -/
theorem eps_free_language_equivalence_witness :
    epsilon_closure_set [1, 2] main_nfa = [1, 2] ∧
      epsilon_closure main_nfa.m_q0 main_nfa = [main_nfa.m_q0] ∧
      (nfa_accepts main_nfa [98, 98] ↔ dfa_accepts main_nfa [98, 98] = true) :=
  eps_free_language_equivalence main_nfa (by decide) [1, 2] [98, 98] (by decide)

/-- C26 (the returned table can be run without falling off): for every
automaton and every word over the alphabet, the run of the returned table from
`s0` finds an entry at every lookup; `s0` paired with every alphabet symbol is
a key, and so is every value of the table. -/
theorem table_run_total (nfa : finite_autometa) :
    (∀ w : List symbol, (∀ c ∈ w, c ∈ nfa.m_input) →
        ∃ T, table_run (convert nfa) (epsilon_closure nfa.m_q0 nfa) w = some T) ∧
      (∀ c ∈ nfa.m_input, table_has_key (convert nfa) (epsilon_closure nfa.m_q0 nfa) c) ∧
      ∀ e ∈ convert nfa, ∀ c ∈ nfa.m_input, table_has_key (convert nfa) e.2 c := by
  refine ⟨fun w hw => ⟨_, (table_run_eq nfa w _ (convert_final_inv nfa).base.start_mem hw).1⟩,
    fun c hc => ?_, fun e he c hc => ?_⟩
  · exact ⟨_, map_find_mem _ _ _
      (convert_find nfa _ c (convert_final_inv nfa).base.start_mem hc), rfl⟩
  · exact ⟨_, map_find_mem _ _ _
      (convert_find nfa e.2 c (produced_mem_states nfa e.2 (Or.inr (Or.inr ⟨e, he, rfl⟩))) hc),
      rfl⟩

/-- C27 (result on the example of the program): for the automaton built in
`main`, `convert` returns exactly twelve entries, here in the order of the
`std::map`, over six DFA states. -/
theorem convert_main_table :
    finite_autometa.construct [1, 2, 3] [97, 98] [3] 1
        [((1, 97), [1]), ((1, 98), [2]), ((2, 97), [1, 2]), ((2, 98), [3]),
          ((3, 97), [3]), ((3, 98), [3])] = main_nfa ∧
      convert main_nfa =
        [(([1], 97), [1]), (([1], 98), [2]),
          (([1, 2], 97), [1, 2]), (([1, 2], 98), [2, 3]),
          (([1, 2, 3], 97), [1, 2, 3]), (([1, 2, 3], 98), [2, 3]),
          (([2], 97), [1, 2]), (([2], 98), [3]),
          (([2, 3], 97), [1, 2, 3]), (([2, 3], 98), [3]),
          (([3], 97), [3]), (([3], 98), [3])] ∧
      (convert main_nfa).length = 12 ∧
      (table_states (convert main_nfa)).toFinset.card = 6 := by
  refine ⟨rfl, by decide, by decide, by decide⟩

/-- C28 (the empty set is a dead sink): for every automaton,
`epsilon_closure (∅)` and `move (∅, c)` are empty; whenever the empty set
occurs in the returned table, as the state of a key or as a value, its entry
for every alphabet symbol is the empty set; and the empty set does not meet
the accepting states. -/
theorem empty_set_is_sink (nfa : finite_autometa) (c : symbol) :
    epsilon_closure_set [] nfa = [] ∧ nfa.move_set [] c = [] ∧
      ((∃ e ∈ convert nfa, e.1.1 = [] ∨ e.2 = []) →
        ∀ c1 ∈ nfa.m_input, map_find ([], c1) (convert nfa) = some []) ∧
      ([] : dfa_state).any (fun q => decide (q ∈ nfa.m_F)) = false := by
  refine ⟨epsilon_closure_set_nil nfa, rfl, ?_, rfl⟩
  rintro ⟨e, he, h⟩ c1 hc1
  have hmem : ([] : dfa_state) ∈ (convert_final nfa).dfa_states := by
    apply produced_mem_states
    rcases h with h | h
    · exact Or.inr (Or.inl ⟨e, he, h⟩)
    · exact Or.inr (Or.inr ⟨e, he, h⟩)
  have hf := convert_find nfa [] c1 hmem hc1
  have hm : nfa.move_set [] c1 = [] := rfl
  rw [hm, epsilon_closure_set_nil] at hf
  exact hf

/-- C29 (BitPattern rejects unknown characters): for every pattern of 1 to 31
characters, the constructor throws `std::logic_error` exactly when some
character of the array before its first NUL is not one of `0`, `1`, `x`, `X`,
and it succeeds exactly when all of them are. -/
theorem BitPattern_rejects_unknown (p : List Char) (hn1 : 1 ≤ p.length)
    (hn : p.length ≤ 31) :
    (BitPattern.construct (c_string p) = .error .logic_error ↔
        ∃ c ∈ chars_before_nul (c_string p), ¬known_char c) ∧
      ((∃ pat, BitPattern.construct (c_string p) = .ok pat) ↔
        ∀ c ∈ chars_before_nul (c_string p), known_char c) := by
  have hlen : (c_string p).length = p.length + 1 := by simp [c_string]
  unfold BitPattern.construct
  rw [hlen, initial_cur_bit_some p.length hn1 hn]
  exact BitPattern_scan_result _ _ _

/-- C29 at the pattern `12`: the character `2` is not known and the
constructor throws. -/
theorem BitPattern_rejects_unknown_witness :
    (BitPattern.construct (c_string ['1', '2']) = .error .logic_error ↔
        ∃ c ∈ chars_before_nul (c_string ['1', '2']), ¬known_char c) ∧
      ((∃ pat, BitPattern.construct (c_string ['1', '2']) = .ok pat) ↔
        ∀ c ∈ chars_before_nul (c_string ['1', '2']), known_char c) :=
  BitPattern_rejects_unknown ['1', '2'] (by decide) (by decide)

/-- C30 (patterns as wide as the 64-bit mask), evaluated where it fails: for
the 32-character pattern `1` followed by thirty-one `0` the initial bit
`1 << 31`, computed in `int`, becomes `0xFFFFFFFF80000000`, so `expected` gets
the bits 31 to 63 and the value `2 ^ 31`, whose bits agree with the pattern,
does not compare equal; for a 33-character pattern the shift is not defined and
the construction is rejected. -/
theorem BitPattern_wide_pattern_fails :
    ('1' :: List.replicate 31 '0').length = 32 ∧
      (∀ c ∈ '1' :: List.replicate 31 '0', known_char c) ∧
      initial_cur_bit (c_string ('1' :: List.replicate 31 '0')).length =
        some 0xFFFFFFFF80000000 ∧
      BitPattern.construct (c_string ('1' :: List.replicate 31 '0')) =
        .ok { expected := 0xFFFFFFFF80000000, mask := 0xFFFFFFFFFFFFFFFF } ∧
      BitPattern.eq_value (2 ^ 31)
        { expected := 0xFFFFFFFF80000000, mask := 0xFFFFFFFFFFFFFFFF } = false ∧
      ((∀ i, (('1' :: List.replicate 31 '0')[i]? = some '1' →
              Nat.testBit (2 ^ 31) (32 - 1 - i) = true) ∧
            (('1' :: List.replicate 31 '0')[i]? = some '0' →
              Nat.testBit (2 ^ 31) (32 - 1 - i) = false)) ∧
        ∀ j, 32 ≤ j → Nat.testBit (2 ^ 31) j = false) ∧
      (List.replicate 33 '0').length = 33 ∧
      BitPattern.construct (c_string (List.replicate 33 '0')) = .error .undefined_shift := by
  refine ⟨rfl, ?_, rfl, rfl, by decide, ⟨fun i => ⟨?_, ?_⟩, fun j hj => ?_⟩, rfl, rfl⟩
  · intro c hc
    rcases List.mem_cons.mp hc with h | h
    · exact Or.inr (Or.inl h)
    · exact Or.inl (List.eq_of_mem_replicate h)
  · intro h
    cases i with
    | zero => rw [Nat.testBit_two_pow]; rfl
    | succ k =>
      rw [List.getElem?_cons_succ] at h
      have h2 := List.eq_of_mem_replicate (List.getElem?_mem h)
      exact absurd h2 (by decide)
  · intro h
    cases i with
    | zero =>
      simp only [List.getElem?_cons_zero, Option.some.injEq] at h
      exact absurd h (by decide)
    | succ k =>
      rw [Nat.testBit_two_pow]
      have hk : k < 31 := by
        rw [List.getElem?_cons_succ] at h
        have := (List.getElem?_eq_some_iff.mp h).1
        simpa using this
      simp only [decide_eq_false_iff_not]
      omega
  · rw [Nat.testBit_two_pow]
    simp only [decide_eq_false_iff_not]
    omega

/-! ## Each discovered set is handled once -/

theorem convert_discover_facts (u : dfa_state) (s : convert_state) (X : dfa_state) :
    (X ∈ s.unmarked_states → X ∈ (convert_discover u s).unmarked_states) ∧
      (X ∈ s.dfa_states → X ∈ (convert_discover u s).dfa_states) ∧
      (X ∈ (convert_discover u s).dfa_states →
        X ∈ s.dfa_states ∨ X ∈ (convert_discover u s).unmarked_states) ∧
      (X ∈ s.dfa_states → X ∉ s.unmarked_states →
        X ∉ (convert_discover u s).unmarked_states) := by
  unfold convert_discover
  by_cases hu : u ∈ s.dfa_states
  · rw [if_pos hu]
    exact ⟨id, id, Or.inl, fun _ h => h⟩
  · rw [if_neg hu]
    refine ⟨fun h => ?_, fun h => ?_, fun h => ?_, fun h1 h2 h3 => ?_⟩
    · exact (mem_insert_dfa_state _ _ _).mpr (Or.inr h)
    · exact (mem_insert_dfa_state _ _ _).mpr (Or.inr h)
    · rcases (mem_insert_dfa_state _ _ _).mp h with h1 | h1
      · exact Or.inr ((mem_insert_dfa_state _ _ _).mpr (Or.inl h1))
      · exact Or.inl h1
    · rcases (mem_insert_dfa_state _ _ _).mp h3 with h4 | h4
      · exact hu (h4 ▸ h1)
      · exact h2 h4

theorem convert_fold_facts (nfa : finite_autometa) (T : dfa_state) (cs : List symbol) :
    ∀ (s : convert_state) (X : dfa_state),
      (X ∈ s.unmarked_states → X ∈ (cs.foldl (convert_symbol nfa T) s).unmarked_states) ∧
        (X ∈ s.dfa_states → X ∈ (cs.foldl (convert_symbol nfa T) s).dfa_states) ∧
        (X ∈ (cs.foldl (convert_symbol nfa T) s).dfa_states →
          X ∈ s.dfa_states ∨ X ∈ (cs.foldl (convert_symbol nfa T) s).unmarked_states) ∧
        (X ∈ s.dfa_states → X ∉ s.unmarked_states →
          X ∉ (cs.foldl (convert_symbol nfa T) s).unmarked_states) := by
  induction cs with
  | nil => intro s X; exact ⟨id, id, Or.inl, fun _ h => h⟩
  | cons c rest ih =>
    intro s X
    obtain ⟨d1, d2, d3, d4⟩ :=
      convert_discover_facts (epsilon_closure_set (nfa.move_set T c) nfa) s X
    obtain ⟨i1, i2, i3, i4⟩ := ih (convert_symbol nfa T s c) X
    simp only [List.foldl_cons]
    refine ⟨fun h => i1 (d1 h), fun h => i2 (d2 h), fun h => ?_, fun h1 h2 => ?_⟩
    · rcases i3 h with h1 | h1
      · rcases d3 h1 with h2 | h2
        · exact Or.inl h2
        · exact Or.inr (i1 h2)
      · exact Or.inr h1
    · exact i4 (d2 h1) (d4 h1 h2)

theorem convert_run_heads (nfa : finite_autometa) :
    ∀ (n : Nat) (s : convert_state), convert_inv nfa s →
      ∀ p ∈ convert_run nfa n s, convert_inv nfa p.1 ∧ p.2 ∈ p.1.unmarked_states := by
  intro n
  induction n with
  | zero => intro s _ p hp; simp [convert_run] at hp
  | succ n ih =>
    intro s h p hp
    simp only [convert_run] at hp
    cases hun : s.unmarked_states with
    | nil => simp [hun] at hp
    | cons T rest =>
      simp only [hun, List.mem_cons] at hp
      rcases hp with hp | hp
      · rw [hp]
        exact ⟨h, by simp [hun]⟩
      · exact ih _ (convert_step_inv nfa s T rest hun h).1 p hp

theorem convert_run_marked (nfa : finite_autometa) (X : dfa_state) :
    ∀ (n : Nat) (s : convert_state), convert_inv nfa s → X ∈ s.dfa_states →
      X ∉ s.unmarked_states →
      ∀ p ∈ convert_run nfa n s, X ∈ p.1.dfa_states ∧ X ∉ p.1.unmarked_states := by
  intro n
  induction n with
  | zero => intro s _ _ _ p hp; simp [convert_run] at hp
  | succ n ih =>
    intro s h h1 h2 p hp
    simp only [convert_run] at hp
    cases hun : s.unmarked_states with
    | nil => simp [hun] at hp
    | cons T rest =>
      simp only [hun, List.mem_cons] at hp
      rcases hp with hp | hp
      · rw [hp]
        exact ⟨h1, h2⟩
      · have hrest : X ∉ rest := fun hc => h2 (hun ▸ List.mem_cons_of_mem T hc)
        obtain ⟨_, f2, _, f4⟩ :=
          convert_fold_facts nfa T nfa.m_input { s with unmarked_states := rest } X
        exact ih _ (convert_step_inv nfa s T rest hun h).1 (f2 h1) (f4 h1 hrest) p hp

theorem convert_step_marks (nfa : finite_autometa) (s : convert_state) (T : dfa_state)
    (rest : List dfa_state) (hun : s.unmarked_states = T :: rest) (h : convert_inv nfa s) :
    T ∈ (nfa.m_input.foldl (convert_symbol nfa T)
        { s with unmarked_states := rest }).dfa_states ∧
      T ∉ (nfa.m_input.foldl (convert_symbol nfa T)
        { s with unmarked_states := rest }).unmarked_states := by
  have hnd : (T :: rest).Nodup := hun ▸ h.base.unmarked_nodup
  have hT : T ∈ s.dfa_states := h.base.unmarked_sub T (by rw [hun]; exact List.mem_cons_self T rest)
  obtain ⟨_, f2, _, f4⟩ :=
    convert_fold_facts nfa T nfa.m_input { s with unmarked_states := rest } T
  exact ⟨f2 hT, f4 hT (List.nodup_cons.mp hnd).1⟩

theorem convert_run_pairwise (nfa : finite_autometa) :
    ∀ (n : Nat) (s : convert_state), convert_inv nfa s →
      (convert_run nfa n s).Pairwise (fun a b => a.2 ∉ b.1.unmarked_states) := by
  intro n
  induction n with
  | zero => intro s _; simp [convert_run]
  | succ n ih =>
    intro s h
    simp only [convert_run]
    cases hun : s.unmarked_states with
    | nil => simp
    | cons T rest =>
      have hstep := (convert_step_inv nfa s T rest hun h).1
      obtain ⟨m1, m2⟩ := convert_step_marks nfa s T rest hun h
      refine List.pairwise_cons.mpr ⟨fun b hb => ?_, ih _ hstep⟩
      exact (convert_run_marked nfa T n _ hstep m1 m2 b hb).2

theorem convert_loop_states_mono (nfa : finite_autometa) (X : dfa_state) :
    ∀ (n : Nat) (s : convert_state), X ∈ s.dfa_states →
      X ∈ (convert_loop nfa n s).dfa_states := by
  intro n
  induction n with
  | zero => intro s h; exact h
  | succ n ih =>
    intro s h
    simp only [convert_loop]
    cases hun : s.unmarked_states with
    | nil => exact h
    | cons T rest =>
      exact ih _ ((convert_fold_facts nfa T nfa.m_input
        { s with unmarked_states := rest } X).2.1 h)

theorem convert_run_states_final (nfa : finite_autometa) :
    ∀ (n : Nat) (s : convert_state),
      ∀ p ∈ convert_run nfa n s, ∀ X ∈ p.1.dfa_states,
        X ∈ (convert_loop nfa n s).dfa_states := by
  intro n
  induction n with
  | zero => intro s p hp; simp [convert_run] at hp
  | succ n ih =>
    intro s p hp X hX
    simp only [convert_run] at hp
    cases hun : s.unmarked_states with
    | nil => simp [hun] at hp
    | cons T rest =>
      simp only [hun, List.mem_cons] at hp
      rcases hp with hp | hp
      · rw [hp] at hX
        exact convert_loop_states_mono nfa X _ s hX
      · simp only [convert_loop, hun]
        exact ih _ p hp X hX

theorem convert_run_covers (nfa : finite_autometa) :
    ∀ (n : Nat) (s : convert_state), convert_inv nfa s → convert_measure nfa s ≤ n →
      ∀ X ∈ (convert_loop nfa n s).dfa_states,
        (X ∈ s.dfa_states ∧ X ∉ s.unmarked_states) ∨
          X ∈ (convert_run nfa n s).map Prod.snd := by
  intro n
  induction n with
  | zero =>
    intro s _ hm X hX
    simp only [convert_measure] at hm
    have h0 : s.unmarked_states = [] := List.length_eq_zero.mp (by omega)
    exact Or.inl ⟨hX, by simp [h0]⟩
  | succ n ih =>
    intro s h hm X hX
    simp only [convert_loop, convert_run] at hX ⊢
    cases hun : s.unmarked_states with
    | nil =>
      simp only [hun] at hX
      exact Or.inl ⟨hX, by simp⟩
    | cons T rest =>
      simp only [hun] at hX
      obtain ⟨hstep, hmeas⟩ := convert_step_inv nfa s T rest hun h
      obtain ⟨f1, _, f3, _⟩ :=
        convert_fold_facts nfa T nfa.m_input { s with unmarked_states := rest } X
      rcases ih _ hstep (by omega) X hX with ⟨h1, h2⟩ | h1
      · by_cases hXT : X = T
        · exact Or.inr (by simp [hXT])
        · left
          have hXs : X ∈ s.dfa_states := by
            rcases f3 h1 with h3 | h3
            · exact h3
            · exact absurd h3 h2
          refine ⟨hXs, fun hc => ?_⟩
          rcases List.mem_cons.mp hc with h3 | h3
          · exact hXT h3
          · exact h2 (f1 h3)
      · exact Or.inr (by
          simp only [List.map_cons, List.mem_cons]
          exact Or.inr h1)

theorem mem_map_assign_self {κ β : Type} [DecidableEq κ] (lt : κ → κ → Bool)
    (hirr : ∀ a, lt a a = false)
    (htot : ∀ a b, lt a b = false → lt b a = false → a = b)
    (k : κ) (v : β) (m : List (κ × β)) : (k, v) ∈ map_assign lt k v m :=
  map_find_mem k v _ (map_find_assign_same lt hirr htot k v m)

theorem mem_map_assign_of_ne {κ β : Type} (lt : κ → κ → Bool)
    (htot : ∀ a b, lt a b = false → lt b a = false → a = b)
    (k : κ) (v : β) (m : List (κ × β)) (e : κ × β) (he : e ∈ m) (hne : e.1 ≠ k) :
    e ∈ map_assign lt k v m := by
  induction m with
  | nil => simp at he
  | cons e1 rest ih =>
    obtain ⟨k1, v1⟩ := e1
    simp only [map_assign]
    cases h1 : lt k k1 with
    | true =>
      simp only [if_true]
      exact List.mem_cons_of_mem _ he
    | false =>
      cases h2 : lt k1 k with
      | true =>
        simp only [if_true, Bool.false_eq_true, if_false]
        rcases List.mem_cons.mp he with h | h
        · rw [h]; exact List.mem_cons_self _ _
        · exact List.mem_cons_of_mem _ (ih h)
      | false =>
        have hk : k = k1 := htot k k1 h1 h2
        simp only [Bool.false_eq_true, if_false]
        rcases List.mem_cons.mp he with h | h
        · rw [h] at hne
          exact absurd hk.symm hne
        · exact List.mem_cons_of_mem _ h

theorem convert_inner_of_inv (nfa : finite_autometa) (s : convert_state) (T : dfa_state)
    (rest : List dfa_state) (hun : s.unmarked_states = T :: rest) (h : convert_inv nfa s) :
    convert_inner nfa T nfa.m_input { s with unmarked_states := rest } := by
  have hnd : (T :: rest).Nodup := hun ▸ h.base.unmarked_nodup
  have hT : T ∈ s.dfa_states :=
    h.base.unmarked_sub T (by rw [hun]; exact List.mem_cons_self T rest)
  refine ⟨⟨h.base.start_mem, ?_, h.base.entries, h.base.states_nodup,
    (List.nodup_cons.mp hnd).2, h.base.states_wf⟩, hT, (List.nodup_cons.mp hnd).1, ?_, ?_⟩
  · intro T1 hT1
    exact h.base.unmarked_sub T1 (by rw [hun]; exact List.mem_cons_of_mem T hT1)
  · intro T1 hT1 hT1u hne c hc
    apply h.marked_done T1 hT1 _ c hc
    rw [hun]
    intro hm
    rcases List.mem_cons.mp hm with h3 | h3
    · exact hne h3
    · exact hT1u h3
  · intro c hc hcn
    exact absurd hc hcn

theorem convert_symbol_keeps_entries (nfa : finite_autometa) (T : dfa_state) (c : symbol)
    (rest : List symbol) (s : convert_state) (h : convert_inner nfa T (c :: rest) s)
    (e : (dfa_state × symbol) × dfa_state) (he : e ∈ s.dfa_trans) :
    e ∈ (convert_symbol nfa T s c).dfa_trans := by
  simp only [convert_symbol, convert_discover_trans]
  by_cases hk : e.1 = (T, c)
  · obtain ⟨⟨T1, c1⟩, u⟩ := e
    simp only [Prod.mk.injEq] at hk
    obtain ⟨e1, e2⟩ := hk
    subst e1 e2
    rw [(h.base.entries T1 c1 u he).2.2.1]
    exact mem_map_assign_self key_less key_less_irrefl key_less_total _ _ _
  · exact mem_map_assign_of_ne key_less key_less_total _ _ _ e he hk

theorem convert_fold_keeps_entries (nfa : finite_autometa) (T : dfa_state)
    (cs : List symbol) :
    ∀ s : convert_state, (∀ c ∈ cs, c ∈ nfa.m_input) → convert_inner nfa T cs s →
      ∀ e ∈ s.dfa_trans, e ∈ (cs.foldl (convert_symbol nfa T) s).dfa_trans := by
  induction cs with
  | nil => intro s _ _ e he; exact he
  | cons c rest ih =>
    intro s hsub h e he
    exact ih _ (fun c1 h1 => hsub c1 (List.mem_cons_of_mem c h1))
      (convert_symbol_inner nfa T c rest s (hsub c (List.mem_cons_self c rest)) h).1 e
      (convert_symbol_keeps_entries nfa T c rest s h e he)

theorem convert_run_keeps_entries (nfa : finite_autometa)
    (e : (dfa_state × symbol) × dfa_state) :
    ∀ (n : Nat) (s : convert_state), convert_inv nfa s → e ∈ s.dfa_trans →
      (∀ p ∈ convert_run nfa n s, e ∈ p.1.dfa_trans) ∧
        e ∈ (convert_loop nfa n s).dfa_trans := by
  intro n
  induction n with
  | zero => intro s _ he; exact ⟨fun p hp => by simp [convert_run] at hp, he⟩
  | succ n ih =>
    intro s h he
    simp only [convert_run, convert_loop]
    cases hun : s.unmarked_states with
    | nil => exact ⟨fun p hp => by simp at hp, he⟩
    | cons T rest =>
      have hnext := ih _ (convert_step_inv nfa s T rest hun h).1
        (convert_fold_keeps_entries nfa T nfa.m_input _ (fun _ hc => hc)
          (convert_inner_of_inv nfa s T rest hun h) e he)
      refine ⟨fun p hp => ?_, hnext.2⟩
      rcases List.mem_cons.mp hp with h1 | h1
      · rw [h1]; exact he
      · exact hnext.1 p h1

theorem convert_run_entries_pairwise (nfa : finite_autometa) :
    ∀ (n : Nat) (s : convert_state), convert_inv nfa s →
      (convert_run nfa n s).Pairwise (fun a b => ∀ e ∈ a.1.dfa_trans, e ∈ b.1.dfa_trans) := by
  intro n
  induction n with
  | zero => intro s _; simp [convert_run]
  | succ n ih =>
    intro s h
    simp only [convert_run]
    cases hun : s.unmarked_states with
    | nil => simp
    | cons T rest =>
      have hstep := (convert_step_inv nfa s T rest hun h).1
      refine List.pairwise_cons.mpr ⟨fun b hb e he => ?_, ih _ hstep⟩
      exact (convert_run_keeps_entries nfa e n _ hstep
        (convert_fold_keeps_entries nfa T nfa.m_input _ (fun _ hc => hc)
          (convert_inner_of_inv nfa s T rest hun h) e he)).1 b hb

theorem convert_iterations_distinct (nfa : finite_autometa) :
    (convert_iterations nfa).Pairwise (fun a b => a.2 ≠ b.2) := by
  have hp := convert_run_pairwise nfa (2 ^ (state_universe nfa).length) _ (convert_init_inv nfa)
  have hh := convert_run_heads nfa (2 ^ (state_universe nfa).length) _ (convert_init_inv nfa)
  refine List.Pairwise.imp_of_mem ?_ hp
  intro a b _ hb hab he
  exact hab (he ▸ (hh b hb).2)

theorem mem_convert_trace (nfa : finite_autometa) (X : dfa_state) :
    X ∈ (convert_iterations nfa).map Prod.snd ↔ X ∈ (convert_final nfa).dfa_states := by
  constructor
  · intro hX
    obtain ⟨p, hp, rfl⟩ := List.mem_map.mp hX
    have hh := convert_run_heads nfa _ _ (convert_init_inv nfa) p hp
    exact convert_run_states_final nfa _ _ p hp p.2 (hh.1.base.unmarked_sub p.2 hh.2)
  · intro hX
    rcases convert_run_covers nfa _ _ (convert_init_inv nfa) (convert_init_measure nfa) X hX
      with ⟨h1, h2⟩ | h
    · exact absurd h1 h2
    · exact h

theorem convert_trace_perm (nfa : finite_autometa) :
    ((convert_iterations nfa).map Prod.snd).Perm (convert_final nfa).dfa_states := by
  apply (List.perm_ext_iff_of_nodup _ (convert_final_inv nfa).base.states_nodup).mpr
  · exact mem_convert_trace nfa
  · exact List.pairwise_map.mpr (convert_iterations_distinct nfa)

theorem mem_convert_writes (nfa : finite_autometa) (k : dfa_state × symbol) :
    k ∈ convert_writes nfa ↔ k ∈ (convert nfa).map Prod.fst := by
  obtain ⟨T, c⟩ := k
  simp only [convert_writes, List.mem_flatMap, List.mem_map, Prod.mk.injEq]
  constructor
  · rintro ⟨p, hp, c1, hc1, hT, rfl⟩
    have hmem : T ∈ (convert_final nfa).dfa_states :=
      (mem_convert_trace nfa T).mp (List.mem_map.mpr ⟨p, hp, hT⟩)
    exact ⟨_, map_find_mem _ _ _ (convert_find nfa T c1 hmem hc1), rfl⟩
  · rintro ⟨e, he, h1⟩
    obtain ⟨⟨T1, c1⟩, u⟩ := e
    simp only [Prod.mk.injEq] at h1
    obtain ⟨h1, h2⟩ := h1
    subst h1 h2
    obtain ⟨hT, hc, _, _⟩ := (convert_final_inv nfa).base.entries T1 c1 u he
    obtain ⟨p, hp, hp2⟩ := List.mem_map.mp ((mem_convert_trace nfa T1).mpr hT)
    exact ⟨p, hp, c1, hc, hp2, rfl⟩

theorem convert_writes_nodup (nfa : finite_autometa) (hin : nfa.m_input.Nodup) :
    (convert_writes nfa).Nodup := by
  unfold convert_writes
  rw [List.nodup_flatMap]
  constructor
  · intro p _
    exact hin.map (fun a b hab => (Prod.mk.inj hab).2)
  · refine List.Pairwise.imp ?_ (convert_iterations_distinct nfa)
    intro a b hab k hka hkb
    obtain ⟨c1, _, h1⟩ := List.mem_map.mp hka
    obtain ⟨c2, _, h2⟩ := List.mem_map.mp hkb
    exact hab (congrArg Prod.fst (h1.trans h2.symm))

theorem convert_keys_nodup (nfa : finite_autometa) : ((convert nfa).map Prod.fst).Nodup := by
  have hs : table_sorted (convert nfa) := by
    unfold convert
    rw [convert_final_eq_any]
    exact (convert_any_sorted nfa _).2
  refine List.Pairwise.imp ?_ hs
  intro a b hab he
  rw [he, key_less_irrefl] at hab
  cases hab

theorem convert_run_entries_final (nfa : finite_autometa) :
    ∀ (n : Nat) (s : convert_state), convert_inv nfa s →
      ∀ p ∈ convert_run nfa n s, ∀ e ∈ p.1.dfa_trans, e ∈ (convert_loop nfa n s).dfa_trans := by
  intro n
  induction n with
  | zero => intro s _ p hp; simp [convert_run] at hp
  | succ n ih =>
    intro s h p hp e he
    simp only [convert_run] at hp
    cases hun : s.unmarked_states with
    | nil => simp [hun] at hp
    | cons T rest =>
      simp only [hun, List.mem_cons] at hp
      rcases hp with hp | hp
      · rw [hp] at he
        exact (convert_run_keeps_entries nfa e (n + 1) s h he).2
      · simp only [convert_loop, hun]
        exact ih _ (convert_step_inv nfa s T rest hun h).1 p hp e he

/-- C22 (each discovered DFA state is processed exactly once): in every call
of `convert`, at every iteration the extracted set is in `unmarked_states` and
`unmarked_states` is included in `dfa_states`; a set extracted in one iteration
is not in `unmarked_states` at any later iteration; the sets extracted are,
each exactly once, the sets of `dfa_states` when the loop is left, which holds
every set ever inserted; the entries of the table are never removed nor
changed; and, the input symbols being distinct, no key is assigned twice and
the keys assigned are the keys of the returned table. -/
theorem convert_handles_each_state_once (nfa : finite_autometa) :
    (∀ p ∈ convert_iterations nfa,
        p.2 ∈ p.1.unmarked_states ∧ ∀ X ∈ p.1.unmarked_states, X ∈ p.1.dfa_states) ∧
      (∀ X ∈ (convert_final nfa).unmarked_states, X ∈ (convert_final nfa).dfa_states) ∧
      (convert_iterations nfa).Pairwise (fun a b => a.2 ∉ b.1.unmarked_states) ∧
      (∀ p ∈ convert_iterations nfa, p.2 ∉ (convert_final nfa).unmarked_states) ∧
      (∀ p ∈ convert_iterations nfa, ∀ X ∈ p.1.dfa_states,
        X ∈ (convert_final nfa).dfa_states) ∧
      ((convert_iterations nfa).map Prod.snd).Perm (convert_final nfa).dfa_states ∧
      (convert_iterations nfa).Pairwise
        (fun a b => ∀ e ∈ a.1.dfa_trans, e ∈ b.1.dfa_trans) ∧
      (∀ p ∈ convert_iterations nfa, ∀ e ∈ p.1.dfa_trans, e ∈ convert nfa) ∧
      (nfa.m_input.Nodup →
        (convert_writes nfa).Nodup ∧
          (convert_writes nfa).Perm ((convert nfa).map Prod.fst)) := by
  have hinit := convert_init_inv nfa
  refine ⟨fun p hp => ?_, ?_, convert_run_pairwise nfa _ _ hinit, fun p _ => ?_,
    convert_run_states_final nfa _ _, convert_trace_perm nfa,
    convert_run_entries_pairwise nfa _ _ hinit, convert_run_entries_final nfa _ _ hinit,
    fun hin => ?_⟩
  · have hh := convert_run_heads nfa _ _ hinit p hp
    exact ⟨hh.2, hh.1.base.unmarked_sub⟩
  · exact (convert_final_inv nfa).base.unmarked_sub
  · rw [convert_final_unmarked]
    simp
  · have hnd := convert_writes_nodup nfa hin
    exact ⟨hnd, (List.perm_ext_iff_of_nodup hnd (convert_keys_nodup nfa)).mpr
      (mem_convert_writes nfa)⟩

/-! ## The calls leave the automaton as it was -/

theorem move_call_eq (fa : finite_autometa) (q : state) (c : symbol) :
    fa.move_call q c = (fa, fa.move q c) := by
  unfold finite_autometa.move_call finite_autometa.move
  cases map_find (q, c) fa.m_tr <;> rfl

theorem move_set_call_fold (fa : finite_autometa) (c : symbol) (S : List state) :
    ∀ init : List state,
      S.foldl
          (fun (acc : finite_autometa × List state) current_state =>
            let new_states := acc.1.move_call current_state c
            (new_states.1,
              new_states.2.foldl (fun d dest_state => set_insert int_less dest_state d) acc.2))
          (fa, init) =
        (fa, S.foldl
          (fun destination_set current_state =>
            (fa.move current_state c).foldl
              (fun acc dest_state => set_insert int_less dest_state acc) destination_set)
          init) := by
  induction S with
  | nil => intro init; rfl
  | cons x xs ih =>
    intro init
    have h := ih ((fa.move x c).foldl (fun acc d => set_insert int_less d acc) init)
    simp only [move_call_eq] at h
    simp only [List.foldl_cons, move_call_eq]
    exact h

theorem move_set_call_eq (fa : finite_autometa) (S : List state) (c : symbol) :
    fa.move_set_call S c = (fa, fa.move_set S c) :=
  move_set_call_fold fa c S []

theorem closure_scan_call_eq (fa : finite_autometa) (top : state) (qs : List state) :
    ∀ s : List state × List state,
      closure_scan_call top qs (fa, s) = (fa, closure_scan fa top qs s) := by
  induction qs with
  | nil => intro s; rfl
  | cons q rest ih =>
    rintro ⟨st, e⟩
    simp only [closure_scan_call, closure_scan, move_call_eq]
    split
    · exact ih _
    · exact ih _

theorem closure_loop_call_eq (fa : finite_autometa) :
    ∀ (n : Nat) (s : List state × List state),
      closure_loop_call fa.m_Q n (fa, s) = (fa, closure_loop fa n s) := by
  intro n
  induction n with
  | zero => intro s; rfl
  | succ n ih =>
    rintro ⟨st, e⟩
    cases st with
    | nil => rfl
    | cons top st =>
      simp only [closure_loop_call, closure_loop, closure_scan_call_eq]
      exact ih _

theorem epsilon_closure_set_call_eq (t : List state) (fa : finite_autometa) :
    epsilon_closure_set_call t fa = (fa, epsilon_closure_set t fa) := by
  simp only [epsilon_closure_set_call, epsilon_closure_set,
    finite_autometa.get_transition_relations_call, finite_autometa.get_states_call,
    closure_loop_call_eq]

theorem epsilon_closure_call_eq (t : state) (fa : finite_autometa) :
    epsilon_closure_call t fa = (fa, epsilon_closure t fa) := by
  simp only [epsilon_closure_call, epsilon_closure,
    finite_autometa.get_transition_relations_call, finite_autometa.get_states_call,
    closure_loop_call_eq]

theorem convert_symbol_call_eq (nfa : finite_autometa) (T : dfa_state) (s : convert_state)
    (c : symbol) :
    convert_symbol_call T (nfa, s) c = (nfa, convert_symbol nfa T s c) := by
  simp only [convert_symbol_call, convert_symbol, move_set_call_eq,
    epsilon_closure_set_call_eq]

theorem convert_fold_call_eq (nfa : finite_autometa) (T : dfa_state) (cs : List symbol) :
    ∀ s : convert_state,
      cs.foldl (convert_symbol_call T) (nfa, s) =
        (nfa, cs.foldl (convert_symbol nfa T) s) := by
  induction cs with
  | nil => intro s; rfl
  | cons c rest ih =>
    intro s
    simp only [List.foldl_cons, convert_symbol_call_eq]
    exact ih _

theorem convert_loop_call_eq (nfa : finite_autometa) :
    ∀ (n : Nat) (s : convert_state),
      convert_loop_call nfa.m_input n (nfa, s) = (nfa, convert_loop nfa n s) := by
  intro n
  induction n with
  | zero => intro s; rfl
  | succ n ih =>
    intro s
    simp only [convert_loop_call, convert_loop]
    cases hun : s.unmarked_states with
    | nil => rfl
    | cons T rest =>
      simp only [convert_fold_call_eq]
      exact ih _

theorem convert_call_eq (nfa : finite_autometa) : convert_call nfa = (nfa, convert nfa) := by
  simp only [convert_call, convert, convert_final, convert_init,
    finite_autometa.get_initialstate_call, finite_autometa.get_input_chars_call,
    epsilon_closure_call_eq, convert_loop_call_eq]

/-- C18 (construction stores, accessors return the components, the calls leave
them unchanged): for every five components the constructor builds an automaton
whose accessors `get_states`, `get_input_chars`, `get_finalstates`,
`get_initialstate` and `get_transition_relations` return the supplied values;
for every automaton, the object after a call of an accessor, of either `move`,
of either `epsilon_closure` or of `convert` is the object before the call, and
the value returned is the one of the function; so the accessors return the
supplied values after `convert` as well. -/
theorem components_stored_and_unchanged (states : List state) (input_alpha : List symbol)
    (final_states : List state) (initial_state : state) (relations : transition_table)
    (fa : finite_autometa) (q t : state) (c : symbol) (S : List state) :
    ((finite_autometa.construct states input_alpha final_states initial_state
          relations).get_states = states ∧
        (finite_autometa.construct states input_alpha final_states initial_state
          relations).get_input_chars = input_alpha ∧
        (finite_autometa.construct states input_alpha final_states initial_state
          relations).get_finalstates = final_states ∧
        (finite_autometa.construct states input_alpha final_states initial_state
          relations).get_initialstate = initial_state ∧
        (finite_autometa.construct states input_alpha final_states initial_state
          relations).get_transition_relations = relations) ∧
      (fa.get_states_call = (fa, fa.get_states) ∧
        fa.get_input_chars_call = (fa, fa.get_input_chars) ∧
        fa.get_finalstates_call = (fa, fa.get_finalstates) ∧
        fa.get_initialstate_call = (fa, fa.get_initialstate) ∧
        fa.get_transition_relations_call = (fa, fa.get_transition_relations)) ∧
      ((fa.move_call q c).1 = fa ∧ (fa.move_set_call S c).1 = fa ∧
        (epsilon_closure_call t fa).1 = fa ∧ (epsilon_closure_set_call S fa).1 = fa ∧
        (convert_call fa).1 = fa) ∧
      ((fa.move_call q c).2 = fa.move q c ∧ (fa.move_set_call S c).2 = fa.move_set S c ∧
        (epsilon_closure_call t fa).2 = epsilon_closure t fa ∧
        (epsilon_closure_set_call S fa).2 = epsilon_closure_set S fa ∧
        (convert_call fa).2 = convert fa) ∧
      ((convert_call (finite_autometa.construct states input_alpha final_states initial_state
          relations)).1.get_states = states ∧
        (convert_call (finite_autometa.construct states input_alpha final_states initial_state
          relations)).1.get_input_chars = input_alpha ∧
        (convert_call (finite_autometa.construct states input_alpha final_states initial_state
          relations)).1.get_finalstates = final_states ∧
        (convert_call (finite_autometa.construct states input_alpha final_states initial_state
          relations)).1.get_initialstate = initial_state ∧
        (convert_call (finite_autometa.construct states input_alpha final_states initial_state
          relations)).1.get_transition_relations = relations) := by
  refine ⟨⟨rfl, rfl, rfl, rfl, rfl⟩, ⟨rfl, rfl, rfl, rfl, rfl⟩, ?_, ?_, ?_⟩
  · rw [move_call_eq, move_set_call_eq, epsilon_closure_call_eq, epsilon_closure_set_call_eq,
      convert_call_eq]
    exact ⟨rfl, rfl, rfl, rfl, rfl⟩
  · rw [move_call_eq, move_set_call_eq, epsilon_closure_call_eq, epsilon_closure_set_call_eq,
      convert_call_eq]
    exact ⟨rfl, rfl, rfl, rfl, rfl⟩
  · rw [convert_call_eq]
    exact ⟨rfl, rfl, rfl, rfl, rfl⟩
